import Mathlib

set_option maxRecDepth 40000

/-!
Verification of the `python-rsa` library (PKCS#1 v1.5 RSA) against its
natural-language specification.

The Python sources under `rsa/` are shallowly embedded: byte strings become
`List ℕ` (each element a byte value `< 256`), arbitrary-precision integers
become `ℕ` (or `ℤ` where Python arithmetic can go negative), exceptions become
an explicit `Except PyErr` result, and reads from the operating-system random
source `os.urandom` are modelled by consuming a caller-supplied byte stream
(`List ℕ`).  Python `while` loops are embedded as fuel-bounded recursion; for
every loop with an a-priori iteration bound the fuel is chosen internally and
proved sufficient, and for the genuinely input-dependent loops the exhaustion
case surfaces as `Option.none`.

Modules `rsa/transform.py`, `rsa/core.py` and `rsa/key.py` are not part of the
given sources; the definitions embedding them are modelled from the
specification (sections 4.4, 4.5 and the section-2 dataflow) and are marked
`Modelled from the spec:` in their doc comments.  Python standard-library
functions (`hashlib`, `base64`, `os.urandom`) are external to the repository:
hashes are abstracted as function parameters, base64 is embedded from its
documented standard encoding, and `os.urandom` is the byte-stream parameter.
-/

namespace RSA

/-- Exceptions raised by the library, one constructor per Python exception
type that the embedded code can raise.  `notRelativePrime a b d` carries the
fields of `rsa.common.NotRelativePrimeError`. -/
inductive PyErr where
  | overflowError : PyErr
  | decryptionError : PyErr
  | verificationError : PyErr
  | valueError : PyErr
  | typeError : PyErr
  | nameError : PyErr
  | notRelativePrime (a b d : ℕ) : PyErr
deriving DecidableEq, Repr

/-! ## Byte transforms (`rsa/transform.py`, modelled from spec section 4.4) -/

/-- Modelled from the spec: `rsa.transform.bytes2int`, big-endian unsigned
decode of a byte string; the empty string decodes to 0. -/
def bytes2int (bs : List ℕ) : ℕ :=
  bs.foldl (fun acc b => acc * 256 + b) 0

/-- Big-endian base-256 digits of `x`, exactly `fill` of them (the value is
taken modulo `256 ^ fill`). -/
def natDigits : ℕ → ℕ → List ℕ
  | 0, _ => []
  | fill + 1, x => natDigits fill (x / 256) ++ [x % 256]

/-- Modelled from the spec: `rsa.transform.int2bytes`, big-endian unsigned
encode of `x` left-padded with zero bytes to exactly `fill` bytes; fails with
`OverflowError` when `x` does not fit. -/
def int2bytes (x fill : ℕ) : Except PyErr (List ℕ) :=
  if 256 ^ fill ≤ x then .error .overflowError else .ok (natDigits fill x)

theorem bytes2int_aux (bs : List ℕ) (acc : ℕ) :
    bs.foldl (fun acc b => acc * 256 + b) acc =
      acc * 256 ^ bs.length + bytes2int bs := by
  induction bs generalizing acc with
  | nil => simp [bytes2int]
  | cons b t ih =>
    simp only [List.foldl_cons, bytes2int, List.length_cons]
    rw [ih (acc * 256 + b), show (0 * 256 + b : ℕ) = b by ring, ih b]
    ring

theorem bytes2int_append_single (l : List ℕ) (b : ℕ) :
    bytes2int (l ++ [b]) = bytes2int l * 256 + b := by
  simp [bytes2int, List.foldl_append]

theorem bytes2int_cons_zero (l : List ℕ) : bytes2int (0 :: l) = bytes2int l := by
  simp [bytes2int]

theorem bytes2int_lt (bs : List ℕ) (h : ∀ b ∈ bs, b < 256) :
    bytes2int bs < 256 ^ bs.length := by
  induction bs using List.reverseRecOn with
  | nil => simp [bytes2int]
  | append_singleton l b ih =>
    rw [bytes2int_append_single]
    have hb : b < 256 := h b (by simp)
    have hl : bytes2int l < 256 ^ l.length := ih (fun x hx => h x (by simp [hx]))
    have : bytes2int l * 256 + b < 256 ^ l.length * 256 := by omega
    simpa [pow_succ] using this

theorem natDigits_length (fill x : ℕ) : (natDigits fill x).length = fill := by
  induction fill generalizing x with
  | zero => simp [natDigits]
  | succ n ih => simp [natDigits, ih]

theorem natDigits_lt (fill x : ℕ) : ∀ b ∈ natDigits fill x, b < 256 := by
  induction fill generalizing x with
  | zero => simp [natDigits]
  | succ n ih =>
    intro b hb
    simp only [natDigits, List.mem_append, List.mem_singleton] at hb
    rcases hb with hb | hb
    · exact ih _ b hb
    · subst hb; exact Nat.mod_lt _ (by norm_num)

theorem bytes2int_natDigits (fill x : ℕ) :
    bytes2int (natDigits fill x) = x % 256 ^ fill := by
  induction fill generalizing x with
  | zero => simp [natDigits, bytes2int, Nat.mod_one]
  | succ n ih =>
    rw [natDigits, bytes2int_append_single, ih]
    conv_rhs => rw [pow_succ, mul_comm]
    rw [Nat.mod_mul]
    ring

theorem bytes2int_natDigits_of_lt (fill x : ℕ) (h : x < 256 ^ fill) :
    bytes2int (natDigits fill x) = x := by
  rw [bytes2int_natDigits, Nat.mod_eq_of_lt h]

theorem natDigits_bytes2int (l : List ℕ) (h : ∀ b ∈ l, b < 256) :
    natDigits l.length (bytes2int l) = l := by
  induction l using List.reverseRecOn with
  | nil => simp [natDigits, bytes2int]
  | append_singleton t b ih =>
    have hb : b < 256 := h b (by simp)
    rw [bytes2int_append_single]
    simp only [List.length_append, List.length_singleton]
    rw [natDigits]
    have hdiv : (bytes2int t * 256 + b) / 256 = bytes2int t := by omega
    have hmod : (bytes2int t * 256 + b) % 256 = b := by omega
    rw [hdiv, hmod, ih (fun x hx => h x (by simp [hx]))]

theorem int2bytes_ok (x fill : ℕ) (h : x < 256 ^ fill) :
    int2bytes x fill = .ok (natDigits fill x) := by
  simp [int2bytes, Nat.not_le.mpr h]

/-! ## Fast modular exponentiation (`rsa/core.py`, Python built-in `pow`) -/

/-- Binary modular exponentiation, fuel-bounded; the fuel only has to cover
the number of halvings of the exponent. -/
def powModAux : ℕ → ℕ → ℕ → ℕ → ℕ
  | 0, _, _, n => 1 % n
  | fuel + 1, b, e, n =>
    if e = 0 then 1 % n
    else
      let r := powModAux fuel (b * b % n) (e / 2) n
      if e % 2 = 1 then r * b % n else r

/-- Modelled from the spec: Python's three-argument `pow(b, e, n)`, the
modular exponentiation used by `rsa.core.encrypt_int` / `decrypt_int` and the
key operations ("mod-exp" in the section-2 dataflow).  Requires `0 < n`
(Python raises on modulus 0). -/
def pow_mod (b e n : ℕ) : ℕ := powModAux (e + 1) b e n

theorem powModAux_eq (fuel : ℕ) :
    ∀ b e n, e < 2 ^ fuel → 0 < n → powModAux fuel b e n = b ^ e % n := by
  induction fuel with
  | zero =>
    intro b e n he _
    have : e = 0 := by simpa using he
    subst this; simp [powModAux]
  | succ f ih =>
    intro b e n he hn
    rw [powModAux]
    by_cases he0 : e = 0
    · subst he0; simp
    · simp only [he0, if_false]
      have hhalf : e / 2 < 2 ^ f := by rw [pow_succ] at he; omega
      rw [ih (b * b % n) (e / 2) n hhalf hn]
      have hbb : (b * b % n) ^ (e / 2) % n = (b * b) ^ (e / 2) % n := by
        conv_rhs => rw [Nat.pow_mod]
      have hsq : (b * b) ^ (e / 2) = b ^ (2 * (e / 2)) := by
        rw [two_mul, pow_add, ← mul_pow]
      by_cases hodd : e % 2 = 1
      · rw [if_pos hodd, hbb, Nat.mod_mul_mod, hsq, ← pow_succ,
          show 2 * (e / 2) + 1 = e by omega]
      · rw [if_neg hodd, hbb, hsq, show 2 * (e / 2) = e by omega]

theorem pow_mod_eq (b e n : ℕ) (hn : 0 < n) : pow_mod b e n = b ^ e % n :=
  powModAux_eq (e + 1) b e n (lt_of_lt_of_le (Nat.lt_two_pow e)
    (Nat.pow_le_pow_right (by norm_num) (by omega))) hn

theorem pow_mod_lt (b e n : ℕ) (hn : 0 < n) : pow_mod b e n < n := by
  rw [pow_mod_eq _ _ _ hn]; exact Nat.mod_lt _ hn

/-! ## `rsa/common.py`: bit and byte sizes -/

/-- Fuel-bounded helper for `bit_size`; the fuel only has to cover the number
of halvings of `n`. -/
def bitSizeAux : ℕ → ℕ → ℕ
  | 0, _ => 0
  | fuel + 1, n => if n = 0 then 0 else bitSizeAux fuel (n / 2) + 1

/-- `rsa.common.bit_size`: number of bits needed to represent `n`;
`bit_size 0 = 0`.  (The Python version computes `len(bin(abs(num))) - 2`;
negative inputs do not occur in the library.) -/
def bit_size (n : ℕ) : ℕ := bitSizeAux (n + 1) n

/-- `rsa.common.byte_size`: `(bit_size n + 7) // 8`. -/
def byte_size (n : ℕ) : ℕ := (bit_size n + 7) / 8

/-- `rsa.common.ceil_div`. -/
def ceil_div (num div : ℕ) : ℕ := (num + div - 1) / div

theorem bitSizeAux_zero (fuel : ℕ) : bitSizeAux fuel 0 = 0 := by
  cases fuel <;> simp [bitSizeAux]

theorem bitSizeAux_spec (fuel : ℕ) :
    ∀ n, n < 2 ^ fuel → n ≠ 0 →
      2 ^ (bitSizeAux fuel n - 1) ≤ n ∧ n < 2 ^ bitSizeAux fuel n ∧
        1 ≤ bitSizeAux fuel n := by
  induction fuel with
  | zero => intro n hn h0; omega
  | succ f ih =>
    intro n hn h0
    rw [bitSizeAux]
    simp only [h0, if_false]
    by_cases hsmall : n / 2 = 0
    · have h1 : n = 1 := by omega
      subst h1
      rw [show (1 / 2 : ℕ) = 0 from rfl, bitSizeAux_zero]
      norm_num
    · have hhalf : n / 2 < 2 ^ f := by
        rw [pow_succ] at hn; omega
      obtain ⟨hlo, hhi, hone⟩ := ih (n / 2) hhalf hsmall
      refine ⟨?_, ?_, by omega⟩
      · have : 2 ^ (bitSizeAux f (n / 2) - 1 + 1) ≤ n / 2 * 2 := by
          rw [pow_succ]; omega
        have h2 : bitSizeAux f (n / 2) - 1 + 1 = bitSizeAux f (n / 2) := by omega
        rw [h2] at this
        have : bitSizeAux f (n / 2) + 1 - 1 = bitSizeAux f (n / 2) := by omega
        rw [this]
        omega
      · rw [pow_succ]; omega

theorem bit_size_spec (n : ℕ) (h0 : n ≠ 0) :
    2 ^ (bit_size n - 1) ≤ n ∧ n < 2 ^ bit_size n ∧ 1 ≤ bit_size n :=
  bitSizeAux_spec (n + 1) n
    (lt_of_lt_of_le (Nat.lt_two_pow n) (Nat.pow_le_pow_right (by norm_num) (by omega)))
    h0

theorem byte_size_bounds (n : ℕ) (h0 : n ≠ 0) :
    256 ^ (byte_size n - 1) ≤ n ∧ n < 256 ^ byte_size n ∧ 1 ≤ byte_size n := by
  obtain ⟨hlo, hhi, hone⟩ := bit_size_spec n h0
  set b := bit_size n with hb
  have hk : byte_size n = (b + 7) / 8 := rfl
  set k := (b + 7) / 8 with hkdef
  have hkb1 : 8 * k ≤ b + 7 := by omega
  have hkb2 : b ≤ 8 * k := by omega
  have hk1 : 1 ≤ k := by omega
  have h256 : (256 : ℕ) = 2 ^ 8 := by norm_num
  refine ⟨?_, ?_, by rw [hk]; omega⟩
  · calc 256 ^ (k - 1) = 2 ^ (8 * (k - 1)) := by rw [h256, ← pow_mul]
    _ ≤ 2 ^ (b - 1) := Nat.pow_le_pow_right (by norm_num) (by omega)
    _ ≤ n := hlo
  · calc n < 2 ^ b := hhi
    _ ≤ 2 ^ (8 * k) := Nat.pow_le_pow_right (by norm_num) (by omega)
    _ = 256 ^ k := by rw [h256, ← pow_mul]

/-! ## `rsa/randnum.py` -/

/-- `rsa.randnum.read_random_bits`: reads `nbits` random bits from the
operating-system random source, modelled as consuming a byte stream.  Returns
the produced byte string together with the unconsumed remainder of the stream;
`none` when the modelled stream is too short.  The Python code reads
`nbits // 8` whole bytes and then, when `nbits` is not a multiple of 8, one
extra byte masked with `(1 << (nbits % 8)) - 1` which it **appends** to the
result. -/
def read_random_bits (nbits : ℕ) (stream : List ℕ) : Option (List ℕ × List ℕ) :=
  let nbytes := nbits / 8
  let rbits := nbits % 8
  if stream.length < nbytes then none
  else
    let bytes_data := stream.take nbytes
    let rest := stream.drop nbytes
    if rbits > 0 then
      match rest with
      | [] => none
      | b :: rest2 => some (bytes_data ++ [b &&& (1 <<< rbits - 1)], rest2)
    else some (bytes_data, rest)

/-- `rsa.randnum.read_random_int`: big-endian value of `read_random_bits`. -/
def read_random_int (nbits : ℕ) (stream : List ℕ) : Option (ℕ × List ℕ) :=
  (read_random_bits nbits stream).map (fun p => (bytes2int p.1, p.2))

/-- Rejection-sampling loop of `randint`, fuel-bounded (each iteration
consumes stream bytes, so the stream length bounds the iterations). -/
def randintAux : ℕ → ℕ → ℕ → List ℕ → Option ℕ
  | 0, _, _, _ => none
  | fuel + 1, maxvalue, nbits, stream =>
    match read_random_int nbits stream with
    | none => none
    | some (value, rest) =>
      if 1 ≤ value ∧ value ≤ maxvalue then some value
      else randintAux fuel maxvalue nbits rest

/-- `rsa.randnum.randint`: the library's random-integer sampler.  It takes a
single bound `maxvalue` and rejection-samples `bit_size maxvalue` bits until
the value lands in `[1, maxvalue]`. -/
def randint (maxvalue : ℕ) (stream : List ℕ) : Option ℕ :=
  randintAux (stream.length + 1) maxvalue (bit_size maxvalue) stream

/-! ## `rsa/prime.py` -/

/-- The `while s % 2 == 0` halving loop of Miller-Rabin, fuel-bounded. -/
def halving : ℕ → ℕ → ℕ → ℕ × ℕ
  | 0, r, s => (r, s)
  | fuel + 1, r, s => if s % 2 = 0 then halving fuel (r + 1) (s / 2) else (r, s)

/-- Decomposition `n - 1 = 2^r * s` with `s` odd (for `s ≥ 1` the internal
fuel always suffices; for `s = 0` the Python loop would not terminate and the
fallback value is irrelevant to the library, which only calls this with
`s = n - 1 ≥ 4`). -/
def decompose (s : ℕ) : ℕ × ℕ := halving (s + 1) 0 s

/-- `rsa.prime.miller_rabin_primality_testing`.  After the special cases and
the decomposition of `n - 1`, the code runs `k` witness rounds.  The first
statement of every round is `a = rsa.randnum.randint(2, n - 1)`; since
`rsa.randnum.randint` takes a single positional parameter `maxvalue`, this
two-argument call raises `TypeError` before any sampling happens, so any
round at all ends the function with that exception. -/
def miller_rabin_primality_testing (n k : ℕ) : Except PyErr Bool :=
  if n = 2 ∨ n = 3 then .ok true
  else if n < 2 ∨ n % 2 = 0 then .ok false
  else
    let _rs := decompose (n - 1)
    if k = 0 then .ok true else .error .typeError

/-- C10: with zero rounds, `miller_rabin_primality_testing(n, 0)` returns
`True` for every odd `n ≥ 5` (in particular for every odd composite) without
drawing any witness. -/
theorem miller_rabin_zero_rounds_true (n : ℕ) (h5 : 5 ≤ n) (hodd : n % 2 = 1) :
    miller_rabin_primality_testing n 0 = .ok true := by
  rw [miller_rabin_primality_testing]
  rw [if_neg (by omega), if_neg (by omega), if_pos rfl]

/-- Witness for C10 at the odd composite `n = 9`. -/
theorem miller_rabin_zero_rounds_true_witness :
    miller_rabin_primality_testing 9 0 = .ok true :=
  miller_rabin_zero_rounds_true 9 (by decide) (by decide)

/-- C4: for every odd `n ≥ 5` and `k ≥ 1`, the first witness round of
`miller_rabin_primality_testing(n, k)` raises `TypeError`, because the
witness-drawing call `rsa.randnum.randint(2, n - 1)` passes two positional
arguments to the one-parameter sampler `randint(maxvalue)`.  This refutes the
claim that the witness-drawing call is well-formed. -/
theorem miller_rabin_round_raises (n k : ℕ) (h5 : 5 ≤ n) (hodd : n % 2 = 1)
    (hk : 1 ≤ k) : miller_rabin_primality_testing n k = .error .typeError := by
  rw [miller_rabin_primality_testing]
  rw [if_neg (by omega), if_neg (by omega), if_neg (by omega)]

/-- Witness for C4 at `n = 5`, `k = 1`. -/
theorem miller_rabin_round_raises_witness :
    miller_rabin_primality_testing 5 1 = .error .typeError :=
  miller_rabin_round_raises 5 1 (by decide) (by decide) (by decide)

/-- C5 counterexample: `read_random_bits 9` on the stream `[255, 1]` returns
the bytes `[255, 1]` (the masked byte is **appended**, i.e. it is the
low-order byte of the big-endian encoding), whose big-endian value 65281 is
not below `2^9 = 512` as the claim asserts. -/
theorem read_random_bits_high_byte_counterexample :
    read_random_bits 9 [255, 1] = some ([255, 1], []) ∧
      bytes2int [255, 1] = 65281 ∧ ¬ bytes2int [255, 1] < 2 ^ 9 := by
  refine ⟨by decide, by decide, by decide⟩

/-- C5 (amended): `read_random_bits nbits` returns exactly
`⌈nbits / 8⌉` bytes; when `nbits` is not a multiple of 8 the byte with the
upper `8 - nbits % 8` bits masked to zero is the **last** (low-order) byte of
the big-endian encoding, so the value satisfies
`value % 256 < 2 ^ (nbits % 8)` but is in general only below
`2 ^ (8 * ⌈nbits / 8⌉)`, not below `2 ^ nbits`. -/
theorem read_random_bits_amended (nbits : ℕ) (stream bs rest : List ℕ)
    (hstream : ∀ b ∈ stream, b < 256)
    (h : read_random_bits nbits stream = some (bs, rest)) :
    bs.length = (nbits + 7) / 8 ∧
      bytes2int bs < 256 ^ ((nbits + 7) / 8) ∧
      (nbits % 8 ≠ 0 → bytes2int bs % 256 < 2 ^ (nbits % 8)) := by
  rw [read_random_bits] at h
  by_cases hlen : stream.length < nbits / 8
  · rw [if_pos hlen] at h
    exact absurd h (by simp)
  · rw [if_neg hlen] at h
    have hlen' : nbits / 8 ≤ stream.length := by omega
    by_cases hr : nbits % 8 > 0
    · rw [if_pos hr] at h
      rcases hdrop : stream.drop (nbits / 8) with _ | ⟨b, rest2⟩
      · rw [hdrop] at h; exact absurd h (by simp)
      · rw [hdrop] at h
        simp only [Option.some.injEq, Prod.mk.injEq] at h
        obtain ⟨hbs, -⟩ := h
        have hmask : b &&& (1 <<< (nbits % 8) - 1) = b % 2 ^ (nbits % 8) := by
          have hpow := Nat.and_pow_two_sub_one_eq_mod b (nbits % 8)
          rw [Nat.shiftLeft_eq, Nat.one_mul]
          exact hpow
        have hlast : b % 2 ^ (nbits % 8) < 2 ^ (nbits % 8) :=
          Nat.mod_lt _ (Nat.pos_pow_of_pos _ (by norm_num))
        have hlast256 : b % 2 ^ (nbits % 8) < 256 := by
          have h8 : nbits % 8 < 8 := Nat.mod_lt _ (by norm_num)
          calc b % 2 ^ (nbits % 8) < 2 ^ (nbits % 8) := hlast
          _ ≤ 2 ^ 7 := Nat.pow_le_pow_right (by norm_num) (by omega)
          _ < 256 := by norm_num
        have hall : ∀ x ∈ bs, x < 256 := by
          intro x hx
          rw [← hbs] at hx
          simp only [List.mem_append, List.mem_singleton] at hx
          rcases hx with hx | hx
          · exact hstream x (List.mem_of_mem_take hx)
          · rw [hx, hmask]; exact hlast256
        have hlenbs : bs.length = (nbits + 7) / 8 := by
          rw [← hbs]
          simp only [List.length_append, List.length_singleton,
            List.length_take]
          omega
        refine ⟨hlenbs, by rw [← hlenbs]; exact bytes2int_lt bs hall, ?_⟩
        intro _
        rw [← hbs, bytes2int_append_single, hmask]
        have hmod : (bytes2int (stream.take (nbits / 8)) * 256 +
            b % 2 ^ (nbits % 8)) % 256 = b % 2 ^ (nbits % 8) := by
          omega
        rw [hmod]
        exact hlast
    · rw [if_neg hr] at h
      simp only [Option.some.injEq, Prod.mk.injEq] at h
      obtain ⟨hbs, -⟩ := h
      have hall : ∀ x ∈ bs, x < 256 := by
        intro x hx
        rw [← hbs] at hx
        exact hstream x (List.mem_of_mem_take hx)
      have hlenbs : bs.length = (nbits + 7) / 8 := by
        rw [← hbs, List.length_take]
        omega
      exact ⟨hlenbs, by rw [← hlenbs]; exact bytes2int_lt bs hall, by omega⟩

/-- Witness for the amended C5 at `nbits = 3`, stream `[5]`. -/
theorem read_random_bits_amended_witness :
    [(5 : ℕ) &&& 7].length = 1 ∧
      bytes2int [(5 : ℕ) &&& 7] < 256 ^ 1 ∧
      ((3 : ℕ) % 8 ≠ 0 → bytes2int [(5 : ℕ) &&& 7] % 256 < 2 ^ (3 % 8)) :=
  read_random_bits_amended 3 [5] [(5 : ℕ) &&& 7] []
    (by decide) (by decide)

/-! ## `rsa/common.py`: extended gcd, inverse, CRT -/

/-- The iterative Euclid loop of `rsa.common.extended_gcd`, state-passing and
fuel-bounded (`b` strictly decreases, so fuel `b + 1` always suffices). -/
def egcdLoop : ℕ → ℕ → ℕ → ℤ → ℤ → ℤ → ℤ → ℕ × ℤ × ℤ
  | 0, a, _, _, _, lastx, lasty => (a, lastx, lasty)
  | fuel + 1, a, b, x, y, lastx, lasty =>
    if b = 0 then (a, lastx, lasty)
    else
      egcdLoop fuel b (a % b) (lastx - (a / b : ℕ) * x) x
        (lasty - (a / b : ℕ) * y) y

/-- `rsa.common.extended_gcd`: returns `(g, u, v)` with
`g = gcd(a, b) = u*a + v*b`. -/
def extended_gcd (a b : ℕ) : ℕ × ℤ × ℤ := egcdLoop (b + 1) a b 0 1 1 0

theorem egcdLoop_fst (fuel : ℕ) :
    ∀ a b x y lastx lasty, b < fuel →
      (egcdLoop fuel a b x y lastx lasty).1 = Nat.gcd a b := by
  induction fuel with
  | zero => intro a b _ _ _ _ h; omega
  | succ f ih =>
    intro a b x y lastx lasty hb
    rw [egcdLoop]
    by_cases hb0 : b = 0
    · subst hb0; simp
    · rw [if_neg hb0]
      rw [ih b (a % b) _ _ _ _ (by have := Nat.mod_lt a (Nat.pos_of_ne_zero hb0); omega)]
      rw [Nat.gcd_comm b (a % b), ← Nat.gcd_rec b a, Nat.gcd_comm b a]

theorem extended_gcd_fst (a b : ℕ) : (extended_gcd a b).1 = Nat.gcd a b :=
  egcdLoop_fst (b + 1) a b 0 1 1 0 (by omega)

/-- `rsa.common.inverse`: `x⁻¹ mod n`; raises `NotRelativePrimeError` when
`gcd(x, n) ≠ 1`. -/
def inverse (x n : ℕ) : Except PyErr ℤ :=
  let t := extended_gcd x n
  if t.1 ≠ 1 then .error (.notRelativePrime x n t.1)
  else .ok (t.2.1 % (n : ℤ))

theorem inverse_error (x n : ℕ) (h : Nat.gcd x n ≠ 1) :
    inverse x n = .error (.notRelativePrime x n (Nat.gcd x n)) := by
  rw [inverse]
  simp only [extended_gcd_fst, h, ne_eq, not_false_eq_true, if_pos]

/-- The accumulation loop of `rsa.common.crt` over the zipped
(residue, modulus) pairs, with the precomputed total product. -/
def crtLoop (prod : ℕ) : List (ℕ × ℕ) → ℤ → Except PyErr ℤ
  | [], total => .ok total
  | (a, m) :: rest, total =>
    match inverse (prod / m) m with
    | .error e => .error e
    | .ok inv => crtLoop prod rest (total + (a : ℤ) * inv * ((prod / m : ℕ) : ℤ))

/-- `rsa.common.crt`: Chinese Remainder reconstruction; `total % prod` at the
end, accumulating `a_i * inverse(prod // m_i, m_i) * (prod // m_i)`. -/
def crt (a_values modulo_values : List ℕ) : Except PyErr ℤ :=
  let prod := modulo_values.prod
  match crtLoop prod (a_values.zip modulo_values) 0 with
  | .error e => .error e
  | .ok total => .ok (total % (prod : ℤ))

theorem crtLoop_error (prod : ℕ) (pairs : List (ℕ × ℕ)) (total : ℤ)
    (h : ∃ p ∈ pairs, Nat.gcd (prod / p.2) p.2 ≠ 1) :
    ∃ x n g, crtLoop prod pairs total = .error (.notRelativePrime x n g) := by
  induction pairs generalizing total with
  | nil => obtain ⟨p, hp, -⟩ := h; simp at hp
  | cons hd tl ih =>
    obtain ⟨a, m⟩ := hd
    by_cases hm : Nat.gcd (prod / m) m ≠ 1
    · refine ⟨prod / m, m, Nat.gcd (prod / m) m, ?_⟩
      rw [crtLoop, inverse_error _ _ hm]
    · obtain ⟨p, hp, hpg⟩ := h
      rcases List.mem_cons.mp hp with rfl | hptl
      · exact absurd hpg hm
      · rw [crtLoop]
        rcases hinv : inverse (prod / m) m with e | v
        · exact ⟨prod / m, m, (extended_gcd (prod / m) m).1, by
            rw [inverse] at hinv
            by_cases hone : (extended_gcd (prod / m) m).1 ≠ 1
            · rw [if_pos hone] at hinv
              simp only [Except.error.injEq] at hinv
              rw [← hinv]
            · rw [if_neg hone] at hinv
              exact absurd hinv (by simp)⟩
        · exact ih _ ⟨p, hptl, hpg⟩

theorem pair_dvd_prod_lt : ∀ (l : List ℕ) (i j : ℕ) (hi : i < l.length)
    (hj : j < l.length), i < j → l.get ⟨i, hi⟩ * l.get ⟨j, hj⟩ ∣ l.prod := by
  intro l
  induction l with
  | nil => intro i j hi _ _; simp at hi
  | cons x t ih =>
    intro i j hi hj hij
    rcases i with _ | i'
    · rcases j with _ | j'
      · omega
      · simp only [List.get_cons_zero, List.get_cons_succ, List.prod_cons]
        exact mul_dvd_mul_left x (List.dvd_prod (t.get_mem _ _))
    · rcases j with _ | j'
      · omega
      · simp only [List.get_cons_succ, List.prod_cons]
        exact Dvd.dvd.mul_left
          (ih i' j' (by simpa using hi) (by simpa using hj) (by omega)) x

theorem pair_dvd_prod (l : List ℕ) (i j : ℕ) (hi : i < l.length)
    (hj : j < l.length) (hij : i ≠ j) :
    l.get ⟨i, hi⟩ * l.get ⟨j, hj⟩ ∣ l.prod := by
  rcases Nat.lt_or_ge i j with h | h
  · exact pair_dvd_prod_lt l i j hi hj h
  · have hlt : j < i := by omega
    rw [mul_comm]
    exact pair_dvd_prod_lt l j i hj hi hlt

/-- C9: for residue and modulus lists of equal length whose moduli are
positive but not pairwise coprime (positions `i ≠ j` with
`gcd(m_i, m_j) > 1`), `crt` raises `NotRelativePrimeError` from the inverse
computation of `prod / m_i` modulo `m_i` for some `i`, instead of returning a
value. -/
theorem crt_not_coprime_raises (as ms : List ℕ) (hlen : as.length = ms.length)
    (hpos : ∀ m ∈ ms, 0 < m) (i j : ℕ) (hi : i < ms.length)
    (hj : j < ms.length) (hij : i ≠ j)
    (hg : 1 < Nat.gcd (ms.get ⟨i, hi⟩) (ms.get ⟨j, hj⟩)) :
    ∃ x n g, crt as ms = .error (.notRelativePrime x n g) := by
  set mi := ms.get ⟨i, hi⟩ with hmi
  set mj := ms.get ⟨j, hj⟩ with hmj
  have hmipos : 0 < mi := hpos _ (ms.get_mem _ _)
  have hdvd : mi * mj ∣ ms.prod := pair_dvd_prod ms i j hi hj hij
  obtain ⟨c, hc⟩ := hdvd
  have hquot : ms.prod / mi = mj * c := by
    rw [hc, mul_assoc, Nat.mul_div_cancel_left _ hmipos]
  have hbad : Nat.gcd (ms.prod / mi) mi ≠ 1 := by
    intro hone
    have hgdvd : Nat.gcd mi mj ∣ Nat.gcd (ms.prod / mi) mi := by
      refine Nat.dvd_gcd ?_ (Nat.gcd_dvd_left _ _)
      exact dvd_trans (Nat.gcd_dvd_right mi mj) (hquot ▸ Dvd.intro c rfl)
    rw [hone] at hgdvd
    have := Nat.le_of_dvd (by norm_num) hgdvd
    omega
  have hpair : ((as.get ⟨i, hlen ▸ hi⟩, mi) : ℕ × ℕ) ∈ as.zip ms := by
    have hizip : i < (as.zip ms).length := by
      rw [List.length_zip]; omega
    have hgz := @List.get_zip ℕ ℕ as ms ⟨i, hizip⟩
    rw [← hgz]
    exact List.get_mem _ _ _
  obtain ⟨x, n, g, hloop⟩ := crtLoop_error ms.prod (as.zip ms) 0
    ⟨_, hpair, hbad⟩
  refine ⟨x, n, g, ?_⟩
  rw [crt, hloop]

/-- Witness for C9: `crt([0, 0], [4, 6])` with the non-coprime moduli 4, 6
raises `NotRelativePrimeError`. -/
theorem crt_not_coprime_raises_witness :
    ∃ x n g, crt [0, 0] [4, 6] = .error (.notRelativePrime x n g) :=
  crt_not_coprime_raises [0, 0] [4, 6] rfl (by decide) 0 1 (by decide)
    (by decide) (by decide) (by decide)

/-! ## Hash tables (`rsa/pkcs1.py` constants) and `rsa/pkcs1_v2.py` MGF1 -/

/-- Names of `rsa.pkcs1.HASH_METHODS`, in Python dict insertion order
(Python ≥ 3.6 includes the SHA-3 entries). -/
def HASH_METHOD_NAMES : List String :=
  ["MD5", "SHA-1", "SHA-224", "SHA-256", "SHA-384", "SHA-512",
   "SHA3-256", "SHA3-384", "SHA3-512"]

/-- Digest sizes (`hashlib` `digest_size`) of the supported hash methods;
used by `mgf1` as `hash_method().digest_size`. -/
def HASH_DIGEST_SIZE : List (String × ℕ) :=
  [("MD5", 16), ("SHA-1", 20), ("SHA-224", 28), ("SHA-256", 32),
   ("SHA-384", 48), ("SHA-512", 64), ("SHA3-256", 32), ("SHA3-384", 48),
   ("SHA3-512", 64)]

/-- Digest size of a supported hash name (0 for unknown names, which the
embedded functions never reach past their own validity check). -/
def digestSize (h : String) : ℕ := (HASH_DIGEST_SIZE.lookup h).getD 0

/-- `counter.to_bytes(4, byteorder='big')`: 4-byte big-endian counter block
(counters stay below `2^32` within `mgf1`'s length bound). -/
def toBytes4 (c : ℕ) : List ℕ :=
  [c / 16777216 % 256, c / 65536 % 256, c / 256 % 256, c % 256]

/-- The `while len(t) < length` loop of `mgf1`, fuel-bounded (each iteration
appends one digest; with a positive digest size, `length + 1` iterations
always suffice). -/
def mgf1Loop (hashImpl : String → List ℕ → List ℕ) (h : String)
    (seed : List ℕ) (length : ℕ) : ℕ → List ℕ → ℕ → Option (List ℕ)
  | 0, t, _ => if t.length < length then none else some t
  | fuel + 1, t, counter =>
    if t.length < length then
      mgf1Loop hashImpl h seed length fuel
        (t ++ hashImpl h (seed ++ toBytes4 counter)) (counter + 1)
    else some t

/-- `rsa.pkcs1_v2.mgf1`.  The function's first statement is
`if hasher not in HASH_METHODS:` — but `pkcs1_v2.py` imports only
`common`, `pkcs1` and `transform` (line 6) and never defines or imports the
bare name `HASH_METHODS` (upstream qualifies it as `pkcs1.HASH_METHODS`),
so Python's name resolution fails and **every** call raises `NameError`
before the length check or the counter loop can run. -/
def mgf1 (_hashImpl : String → List ℕ → List ℕ) (_seed : List ℕ)
    (_length : ℕ) (_hasher : String) : Option (Except PyErr (List ℕ)) :=
  some (.error .nameError)

/-- The remainder of `mgf1`'s body, translated from the source **under the
upstream-intended name resolution** `HASH_METHODS = rsa.pkcs1.HASH_METHODS`:
check the hash name, then the `2^32 * h_len` length bound, then concatenate
`H(seed ++ C(counter))` blocks until `length` bytes are available and
truncate.  In the shipped module this code is unreachable (see `mgf1`); it
is kept, with its specification below, to document that the mask-generation
logic itself matches the spec and that the defect is only the missing
`pkcs1.` qualifier.  The hash family is a parameter (it is `hashlib`,
external to the repository). -/
def mgf1IfResolved (hashImpl : String → List ℕ → List ℕ) (seed : List ℕ)
    (length : ℕ) (hasher : String) : Option (Except PyErr (List ℕ)) :=
  if hasher ∈ HASH_METHOD_NAMES then
    let h_len := digestSize hasher
    if length > 2 ^ 32 * h_len then some (.error .overflowError)
    else
      (mgf1Loop hashImpl hasher seed length (length + 1) [] 0).map
        (fun t => .ok (t.take length))
  else some (.error .valueError)

/-- Concatenation of the first `m` mask blocks. -/
def maskBlocks (F : ℕ → List ℕ) (m : ℕ) : List ℕ :=
  ((List.range m).map F).flatten

theorem maskBlocks_succ (F : ℕ → List ℕ) (m : ℕ) :
    maskBlocks F (m + 1) = maskBlocks F m ++ F m := by
  rw [maskBlocks, maskBlocks, List.range_succ]
  simp

theorem maskBlocks_length (F : ℕ → List ℕ) (hLen : ℕ)
    (hF : ∀ i, (F i).length = hLen) (m : ℕ) :
    (maskBlocks F m).length = m * hLen := by
  induction m with
  | zero => simp [maskBlocks]
  | succ k ih =>
    rw [maskBlocks_succ, List.length_append, ih, hF]
    ring

theorem maskBlocks_prefix (F : ℕ → List ℕ) (m n : ℕ) (h : m ≤ n) :
    ∃ rest, maskBlocks F n = maskBlocks F m ++ rest := by
  induction n with
  | zero =>
    have : m = 0 := by omega
    exact ⟨[], by simp [this]⟩
  | succ k ih =>
    rcases Nat.lt_or_ge m (k + 1) with hlt | hge
    · obtain ⟨rest, hr⟩ := ih (by omega)
      exact ⟨rest ++ F k, by rw [maskBlocks_succ, hr, List.append_assoc]⟩
    · have : m = k + 1 := by omega
      exact ⟨[], by simp [this]⟩

theorem maskBlocks_take_eq (F : ℕ → List ℕ) (hLen : ℕ)
    (hF : ∀ i, (F i).length = hLen) (len m n : ℕ) (hm : len ≤ m * hLen)
    (hn : len ≤ n * hLen) :
    (maskBlocks F m).take len = (maskBlocks F n).take len := by
  rcases le_or_lt m n with h | h
  · obtain ⟨rest, hr⟩ := maskBlocks_prefix F m n h
    rw [hr, List.take_append_of_le_length
      (by rw [maskBlocks_length F hLen hF]; exact hm)]
  · obtain ⟨rest, hr⟩ := maskBlocks_prefix F n m (by omega)
    rw [hr, List.take_append_of_le_length
      (by rw [maskBlocks_length F hLen hF]; exact hn)]

theorem mgf1Loop_spec (hashImpl : String → List ℕ → List ℕ) (h : String)
    (seed : List ℕ) (length hLen : ℕ)
    (hF : ∀ i, (hashImpl h (seed ++ toBytes4 i)).length = hLen) :
    ∀ fuel counter, length ≤ counter * hLen + fuel * hLen →
      ∃ N, length ≤ N * hLen ∧
        mgf1Loop hashImpl h seed length fuel
          (maskBlocks (fun i => hashImpl h (seed ++ toBytes4 i)) counter)
          counter =
          some (maskBlocks (fun i => hashImpl h (seed ++ toBytes4 i)) N) := by
  set F := fun i => hashImpl h (seed ++ toBytes4 i) with hFdef
  intro fuel
  induction fuel with
  | zero =>
    intro counter hle
    refine ⟨counter, by omega, ?_⟩
    rw [mgf1Loop, if_neg]
    rw [maskBlocks_length F hLen hF]
    omega
  | succ f ih =>
    intro counter hle
    rw [mgf1Loop]
    by_cases hcond : (maskBlocks F counter).length < length
    · rw [if_pos hcond]
      have hrec := ih (counter + 1) (by
        have : (counter + 1) * hLen + f * hLen = counter * hLen + (f + 1) * hLen := by
          ring
        omega)
      rw [maskBlocks_succ] at hrec
      exact hrec
    · rw [if_neg hcond]
      refine ⟨counter, ?_, rfl⟩
      rw [maskBlocks_length F hLen hF] at hcond
      omega

theorem digestSize_pos (h : String) (hmem : h ∈ HASH_METHOD_NAMES) :
    1 ≤ digestSize h := by
  fin_cases hmem <;> decide

/-- Supporting analysis of the dead remainder of the body: had the
`HASH_METHODS` lookup resolved (as `pkcs1.HASH_METHODS` does upstream),
then for every supported hash `h`, every seed, and every
`length ≤ 2^32 * hLen`, the function would return the first `length`
bytes of `H(seed ++ C(0)) ++ H(seed ++ C(1)) ++ ...` where `C(i)` is the
4-byte big-endian counter.  This isolates the defect in `mgf1` to the
unresolved name alone. -/
theorem mgf1_if_resolved_spec (hashImpl : String → List ℕ → List ℕ)
    (seed : List ℕ) (length : ℕ) (h : String) (hmem : h ∈ HASH_METHOD_NAMES)
    (hdl : ∀ x, (hashImpl h x).length = digestSize h)
    (hbound : length ≤ 2 ^ 32 * digestSize h) :
    mgf1IfResolved hashImpl seed length h =
      some (.ok ((maskBlocks
        (fun i => hashImpl h (seed ++ toBytes4 i)) length).take length)) ∧
      mgf1IfResolved hashImpl [] 0 "SHA-1" = some (.ok []) := by
  constructor
  · rw [mgf1IfResolved, if_pos hmem, if_neg (by omega)]
    have hpos := digestSize_pos h hmem
    have hF : ∀ i, (hashImpl h (seed ++ toBytes4 i)).length = digestSize h :=
      fun i => hdl _
    have hloop := mgf1Loop_spec hashImpl h seed length (digestSize h) hF
      (length + 1) 0 (by nlinarith)
    obtain ⟨N, hN, hrun⟩ := hloop
    have hinit : maskBlocks
        (fun i => hashImpl h (seed ++ toBytes4 i)) 0 = [] := by
      simp [maskBlocks]
    rw [hinit] at hrun
    have heq := maskBlocks_take_eq _ (digestSize h) hF length N length hN
      (by nlinarith)
    rw [hrun, Option.map_some', heq]
  · rw [mgf1IfResolved, if_pos (by decide), if_neg (by decide)]
    rfl

/-- Concrete instance of `mgf1_if_resolved_spec`: a constant 20-byte hash
family, seed `[1, 2]`, length 7 under `SHA-1`. -/
theorem mgf1_if_resolved_spec_witness :
    mgf1IfResolved (fun _ _ => List.replicate 20 0) [1, 2] 7 "SHA-1" =
      some (.ok ((maskBlocks
        (fun i => (fun (_ : String) (_ : List ℕ) => List.replicate 20 0)
          "SHA-1" ([1, 2] ++ toBytes4 i)) 7).take 7)) ∧
      mgf1IfResolved (fun _ _ => List.replicate 20 0) [] 0 "SHA-1" =
        some (.ok []) :=
  mgf1_if_resolved_spec (fun _ _ => List.replicate 20 0) [1, 2] 7 "SHA-1"
    (by decide) (fun _ => rfl) (by decide)

/-- C6 (refuted, code bug): every call of `mgf1` — with any hash family,
any seed, any length and any hasher name — raises `NameError`, because the
body references the bare name `HASH_METHODS`, which `pkcs1_v2.py` neither
defines nor imports (it imports only `common`, `pkcs1` and `transform`).
In particular `mgf1(b"", 0)` does not return `b""` as the claim states.
Upstream python-rsa writes `pkcs1.HASH_METHODS`. -/
theorem mgf1_raises_name_error :
    (∀ (hashImpl : String → List ℕ → List ℕ) (seed : List ℕ)
      (length : ℕ) (hasher : String),
        mgf1 hashImpl seed length hasher = some (.error .nameError)) ∧
    mgf1 (fun _ _ => []) [] 0 "SHA-1" = some (.error .nameError) :=
  ⟨fun _ _ _ _ => rfl, rfl⟩

/-! ## `rsa/pkcs1.py`: PKCS#1 v1.5 padding, encryption, signing -/

/-- `rsa.pkcs1.HASH_ASN1`: DigestInfo ASN.1 prefixes, in Python dict
insertion order (the SHA-3 entries are appended on Python ≥ 3.6). -/
def HASH_ASN1 : List (String × List ℕ) :=
  [("MD5", [48, 32, 48, 12, 6, 8, 42, 134, 72, 134, 247, 13, 2, 5, 5, 0, 4, 16]),
   ("SHA-1", [48, 33, 48, 9, 6, 5, 43, 14, 3, 2, 26, 5, 0, 4, 20]),
   ("SHA-224", [48, 45, 48, 13, 6, 9, 96, 134, 72, 1, 101, 3, 4, 2, 4, 5, 0, 4, 28]),
   ("SHA-256", [48, 49, 48, 13, 6, 9, 96, 134, 72, 1, 101, 3, 4, 2, 1, 5, 0, 4, 32]),
   ("SHA-384", [48, 65, 48, 13, 6, 9, 96, 134, 72, 1, 101, 3, 4, 2, 2, 5, 0, 4, 48]),
   ("SHA-512", [48, 81, 48, 13, 6, 9, 96, 134, 72, 1, 101, 3, 4, 2, 3, 5, 0, 4, 64]),
   ("SHA3-256", [48, 49, 48, 13, 6, 9, 96, 134, 72, 1, 101, 3, 4, 2, 8, 5, 0, 4, 32]),
   ("SHA3-384", [48, 65, 48, 13, 6, 9, 96, 134, 72, 1, 101, 3, 4, 2, 9, 5, 0, 4, 48]),
   ("SHA3-512", [48, 81, 48, 13, 6, 9, 96, 134, 72, 1, 101, 3, 4, 2, 10, 5, 0, 4, 64])]

/-- Python's `bytes.startswith`: `startswith p l` is true when `p` is a
leading segment of `l`. -/
def startswith : List ℕ → List ℕ → Bool
  | [], _ => true
  | _ :: _, [] => false
  | a :: as, b :: bs => a == b && startswith as bs

/-- `rsa.pkcs1._find_method_hash`: scans the `HASH_ASN1` table in order and
returns the first hash name whose DigestInfo prefix is a **leading** segment
of `clearsig` (the code calls `clearsig.startswith(asn1code)` on the full
padded block); raises `VerificationError` when nothing matches. -/
def find_method_hash (clearsig : List ℕ) : Except PyErr String :=
  match HASH_ASN1.find? (fun p => startswith p.2 clearsig) with
  | some p => .ok p.1
  | none => .error .verificationError

/-- `rsa.pkcs1.compute_hash`: checks the method name and returns the digest
of the message.  The hash family itself is `hashlib` (external), supplied as
the parameter `hashImpl`. -/
def compute_hash (hashImpl : String → List ℕ → List ℕ) (message : List ℕ)
    (method_name : String) : Except PyErr (List ℕ) :=
  if method_name ∈ HASH_METHOD_NAMES then .ok (hashImpl method_name message)
  else .error .valueError

/-- `rsa.pkcs1._pad_for_signing`: `00 01 FF..FF 00 ‖ message`, padded to
`target_length` bytes; `OverflowError` when the message exceeds
`target_length - 11` (the bound is checked over ℤ because the Python
subtraction can go negative). -/
def pad_for_signing (message : List ℕ) (target_length : ℕ) :
    Except PyErr (List ℕ) :=
  if (message.length : ℤ) > (target_length : ℤ) - 11 then
    .error .overflowError
  else
    .ok ([0, 1] ++ List.replicate (target_length - message.length - 3) 255
      ++ [0] ++ message)

/-- The `while len(padding) < padding_length` loop of
`_pad_for_encryption`: reads `needed + 5` bytes from the random stream,
discards zero bytes, and keeps at most `needed` of the rest; fuel-bounded
(`none` models an exhausted stream, on which the Python loop would block). -/
def padLoop : ℕ → List ℕ → List ℕ → ℕ → Option (List ℕ × List ℕ)
  | 0, _, _, _ => none
  | fuel + 1, stream, padding, padding_length =>
    if padding.length < padding_length then
      let needed := padding_length - padding.length
      let raw := stream.take (needed + 5)
      let rest := stream.drop (needed + 5)
      let new_padding := (raw.filter (fun b => b ≠ 0)).take needed
      padLoop fuel rest (padding ++ new_padding) padding_length
    else some (padding, stream)

/-- `rsa.pkcs1._pad_for_encryption`: `00 02 ‖ PS ‖ 00 ‖ message` with
`PS` random non-zero bytes, padded to `target_length`; `OverflowError` when
the message exceeds `target_length - 11`.  The random source is the stream
parameter; `none` models stream exhaustion. -/
def pad_for_encryption (message : List ℕ) (target_length : ℕ)
    (stream : List ℕ) : Option (Except PyErr (List ℕ)) :=
  if (message.length : ℤ) > (target_length : ℤ) - 11 then
    some (.error .overflowError)
  else
    (padLoop (stream.length + 1) stream []
        (target_length - message.length - 3)).map
      (fun pr => .ok ([0, 2] ++ pr.1 ++ [0] ++ message))

/-- Modelled from the spec: `rsa.key.PublicKey` (section 3) with modulus `n`
and public exponent `e`. -/
structure PublicKey where
  n : ℕ
  e : ℕ
deriving DecidableEq, Repr

/-- Modelled from the spec: `rsa.key.PrivateKey` (section 3) with modulus
`n`, exponents `e`, `d`, factors `p > q`, and the CRT helpers
`exp1 = d mod (p-1)`, `exp2 = d mod (q-1)`, `coef = q⁻¹ mod p`. -/
structure PrivateKey where
  n : ℕ
  e : ℕ
  d : ℕ
  p : ℕ
  q : ℕ
  exp1 : ℕ
  exp2 : ℕ
  coef : ℕ
deriving DecidableEq, Repr

/-- Well-formedness of a private key, following the spec's key invariants
(sections 3 and 8): prime factors `p > q > 2`, `n = p*q`,
`d*e ≡ 1 (mod (p-1)(q-1))`, and the CRT helpers. -/
def PrivateKey.wf (sk : PrivateKey) : Prop :=
  sk.p.Prime ∧ sk.q.Prime ∧ 2 < sk.q ∧ sk.q < sk.p ∧ sk.n = sk.p * sk.q ∧
    sk.d * sk.e ≡ 1 [MOD (sk.p - 1) * (sk.q - 1)] ∧
    sk.exp1 = sk.d % (sk.p - 1) ∧ sk.exp2 = sk.d % (sk.q - 1) ∧
    sk.coef * sk.q ≡ 1 [MOD sk.p]

/-- Modelled from the spec: message blinding (section 4.5) — multiply by
`rᵉ mod n` before a private-key exponentiation.  The blinding pair
`(r, rinv)` is the key's cached state, passed explicitly here; the spec
invariant is `r * rinv ≡ 1 (mod n)`. -/
def blind (sk : PrivateKey) (r m : ℕ) : ℕ :=
  m * pow_mod r sk.e sk.n % sk.n

/-- Modelled from the spec: unblinding (section 4.5) — multiply by the
cached inverse `rinv`. -/
def unblind (sk : PrivateKey) (rinv m : ℕ) : ℕ :=
  rinv * m % sk.n

/-- Modelled from the spec: the CRT fast path for `x^d mod n`
(section 4.5): `m1 = x^exp1 mod p`, `m2 = x^exp2 mod q`,
`h = coef*(m1 - m2) mod p` (computed over ℤ, as the Python subtraction can
go negative), result `m2 + h*q`. -/
def crt_decrypt (sk : PrivateKey) (x : ℕ) : ℕ :=
  let m1 := pow_mod x sk.exp1 sk.p
  let m2 := pow_mod x sk.exp2 sk.q
  let h := ((sk.coef : ℤ) * ((m1 : ℤ) - (m2 : ℤ))) % (sk.p : ℤ)
  m2 + h.toNat * sk.q

/-- Modelled from the spec: `rsa.key.PrivateKey.blinded_decrypt`
(section 4.5) — blind, exponentiate by `d` via the CRT fast path,
unblind. -/
def blinded_decrypt (sk : PrivateKey) (r rinv c : ℕ) : ℕ :=
  unblind sk rinv (crt_decrypt sk (blind sk r c))

/-- Modelled from the spec: `rsa.key.PrivateKey.blinded_encrypt`, the
blinded private-key exponentiation used by signing (sections 2 and 4.5):
blind, raise to `d` modulo `n`, unblind. -/
def blinded_encrypt (sk : PrivateKey) (r rinv m : ℕ) : ℕ :=
  unblind sk rinv (pow_mod (blind sk r m) sk.d sk.n)

/-- `rsa.pkcs1.encrypt`: pad to the key length, decode to an integer,
`m^e mod n` (`rsa.core.encrypt_int`), re-encode to `k` bytes. -/
def encrypt (message : List ℕ) (pub : PublicKey) (stream : List ℕ) :
    Option (Except PyErr (List ℕ)) :=
  let keylength := byte_size pub.n
  match pad_for_encryption message keylength stream with
  | none => none
  | some (.error e) => some (.error e)
  | some (.ok padded) =>
    let payload := bytes2int padded
    let encrypted := pow_mod payload pub.e pub.n
    some (int2bytes encrypted keylength)

/-- Helper for Python's `cleartext.index(b'\x00', 2)`: index of the first
zero byte of `l`, counting from `start`, over the suffix `l.drop start`. -/
def findZeroAux : List ℕ → ℕ → Option ℕ
  | [], _ => none
  | b :: rest, i => if b = 0 then some i else findZeroAux rest (i + 1)

/-- Index of the first `0x00` byte of `l` at position ≥ `start`
(`none` models Python's `ValueError` from `bytes.index`). -/
def findZeroFrom (l : List ℕ) (start : ℕ) : Option ℕ :=
  findZeroAux (l.drop start) start

/-- `rsa.pkcs1.decrypt`: decode the ciphertext, `blinded_decrypt`, re-encode
to `k` bytes, then check that the cleartext starts `00 02` and find the
`0x00` separator from index 2 on; `DecryptionError` on either failure,
otherwise everything after the separator.  (The code imports
`hmac.compare_digest` but never uses it, and does not check that the
separator leaves at least 8 padding bytes.) -/
def decrypt (crypto : List ℕ) (sk : PrivateKey) (r rinv : ℕ) :
    Except PyErr (List ℕ) :=
  let blocksize := byte_size sk.n
  let encrypted := bytes2int crypto
  let decrypted := blinded_decrypt sk r rinv encrypted
  match int2bytes decrypted blocksize with
  | .error e => .error e
  | .ok cleartext =>
    if cleartext.take 2 ≠ [0, 2] then .error .decryptionError
    else
      match findZeroFrom cleartext 2 with
      | none => .error .decryptionError
      | some sep_idx => .ok (cleartext.drop (sep_idx + 1))

/-- `rsa.pkcs1.sign_hash`: look up the ASN.1 prefix, build the DigestInfo
block, pad for signing, `blinded_encrypt`, re-encode to `k` bytes. -/
def sign_hash (hash_value : List ℕ) (sk : PrivateKey) (r rinv : ℕ)
    (hash_method : String) : Except PyErr (List ℕ) :=
  match HASH_ASN1.lookup hash_method with
  | none => .error .valueError
  | some asn1code =>
    let cleartext := asn1code ++ hash_value
    let keylength := byte_size sk.n
    match pad_for_signing cleartext keylength with
    | .error e => .error e
    | .ok padded =>
      int2bytes (blinded_encrypt sk r rinv (bytes2int padded)) keylength

/-- `rsa.pkcs1.sign`: hash the message, then `sign_hash`. -/
def sign (hashImpl : String → List ℕ → List ℕ) (message : List ℕ)
    (sk : PrivateKey) (r rinv : ℕ) (hash_method : String) :
    Except PyErr (List ℕ) :=
  match compute_hash hashImpl message hash_method with
  | .error e => .error e
  | .ok hash_value => sign_hash hash_value sk r rinv hash_method

/-- `rsa.pkcs1.verify`: decode the signature, `s^e mod n`
(`rsa.core.decrypt_int`), re-encode to `k` bytes, detect the hash method
with `_find_method_hash`, recompute the expected padded DigestInfo block and
compare; returns the hash name on an exact match, `VerificationError`
otherwise. -/
def verify (hashImpl : String → List ℕ → List ℕ) (message signature : List ℕ)
    (pub : PublicKey) : Except PyErr String :=
  let keylength := byte_size pub.n
  let encrypted := bytes2int signature
  let decrypted := pow_mod encrypted pub.e pub.n
  match int2bytes decrypted keylength with
  | .error e => .error e
  | .ok clearsig =>
    match find_method_hash clearsig with
    | .error e => .error e
    | .ok method_name =>
      match compute_hash hashImpl message method_name with
      | .error e => .error e
      | .ok message_hash =>
        let cleartext := (HASH_ASN1.lookup method_name).getD [] ++ message_hash
        match pad_for_signing cleartext keylength with
        | .error e => .error e
        | .ok expected =>
          if expected ≠ clearsig then .error .verificationError
          else .ok method_name

theorem padLoop_spec (fuel : ℕ) :
    ∀ stream padding padding_length ps rest,
      (∀ b ∈ stream, b < 256) → (∀ b ∈ padding, b ≠ 0 ∧ b < 256) →
      padding.length ≤ padding_length →
      padLoop fuel stream padding padding_length = some (ps, rest) →
      ps.length = padding_length ∧ ∀ b ∈ ps, b ≠ 0 ∧ b < 256 := by
  induction fuel with
  | zero =>
    intro stream padding padding_length ps rest _ _ _ h
    exact absurd h (by rw [padLoop]; simp)
  | succ f ih =>
    intro stream padding padding_length ps rest hstream hpad hlen h
    rw [padLoop] at h
    by_cases hcond : padding.length < padding_length
    · rw [if_pos hcond] at h
      refine ih _ _ _ _ _ ?_ ?_ ?_ h
      · intro b hb
        exact hstream b (List.mem_of_mem_drop hb)
      · intro b hb
        rcases List.mem_append.mp hb with hb | hb
        · exact hpad b hb
        · have hb' := List.mem_of_mem_take hb
          rw [List.mem_filter] at hb'
          refine ⟨by simpa using hb'.2, hstream b (List.mem_of_mem_take hb'.1)⟩
      · rw [List.length_append]
        have := List.length_take_le (padding_length - padding.length)
          ((stream.take (padding_length - padding.length + 5)).filter
            (fun b => b ≠ 0))
        omega
    · rw [if_neg hcond] at h
      simp only [Option.some.injEq, Prod.mk.injEq] at h
      obtain ⟨rfl, -⟩ := h
      exact ⟨by omega, hpad⟩

theorem pad_for_encryption_ok (message : List ℕ) (target_length : ℕ)
    (stream : List ℕ) (hstream : ∀ b ∈ stream, b < 256)
    (hle : (message.length : ℤ) ≤ (target_length : ℤ) - 11)
    (em : List ℕ)
    (hem : pad_for_encryption message target_length stream = some (.ok em)) :
    em.length = target_length ∧
      ∃ ps, em = 0 :: 2 :: (ps ++ 0 :: message) ∧
        ps.length = target_length - message.length - 3 ∧
        (∀ b ∈ ps, b ≠ 0) ∧ (∀ b ∈ ps, b < 256) := by
  have hlen : message.length + 11 ≤ target_length := by
    omega
  rw [pad_for_encryption, if_neg (by omega)] at hem
  rcases hloop : padLoop (stream.length + 1) stream []
      (target_length - message.length - 3) with _ | ⟨ps, rest⟩
  · rw [hloop] at hem
    exact absurd hem (by simp)
  · rw [hloop] at hem
    simp only [Option.map_some', Option.some.injEq, Except.ok.injEq] at hem
    obtain ⟨hpslen, hps⟩ := padLoop_spec (stream.length + 1) stream []
      (target_length - message.length - 3) ps rest hstream
      (by simp) (by simp) hloop
    refine ⟨?_, ps, ?_, hpslen, fun b hb => (hps b hb).1,
      fun b hb => (hps b hb).2⟩
    · rw [← hem]
      simp only [List.length_append, List.length_cons]
      simp only [hpslen]
      simp
      omega
    · rw [← hem]
      simp

theorem pad_for_encryption_overflow (message : List ℕ) (target_length : ℕ)
    (stream : List ℕ)
    (hgt : (message.length : ℤ) > (target_length : ℤ) - 11) :
    pad_for_encryption message target_length stream =
      some (.error .overflowError) := by
  rw [pad_for_encryption, if_pos hgt]

/-- C7: `_pad_for_encryption(message, k)`, when the message fits
(`len ≤ k - 11`) and the random stream suffices, returns a block of exactly
`k` bytes of the form `00 02 ‖ PS ‖ 00 ‖ message` with `PS` exactly
`k - len - 3` non-zero bytes; when `len > k - 11` it raises
`OverflowError`. -/
theorem pad_for_encryption_correct (message : List ℕ) (target_length : ℕ)
    (stream : List ℕ) (hstream : ∀ b ∈ stream, b < 256) :
    (((message.length : ℤ) ≤ (target_length : ℤ) - 11) →
      ∀ em, pad_for_encryption message target_length stream = some (.ok em) →
        em.length = target_length ∧
          ∃ ps, em = 0 :: 2 :: (ps ++ 0 :: message) ∧
            ps.length = target_length - message.length - 3 ∧
            ∀ b ∈ ps, b ≠ 0) ∧
    (((message.length : ℤ) > (target_length : ℤ) - 11) →
      pad_for_encryption message target_length stream =
        some (.error .overflowError)) := by
  constructor
  · intro hle em hem
    obtain ⟨h1, ps, h2, h3, h4, -⟩ :=
      pad_for_encryption_ok message target_length stream hstream hle em hem
    exact ⟨h1, ps, h2, h3, h4⟩
  · exact pad_for_encryption_overflow message target_length stream

/-- Witness for C7: message `[1, 2, 3]`, `k = 16` (success, with the
produced block decomposed as claimed) and `k = 13` (overflow). -/
theorem pad_for_encryption_correct_witness :
    (([0, 2] ++ List.replicate 10 7 ++ [0] ++ [1, 2, 3] : List ℕ).length = 16 ∧
      ∃ ps, ([0, 2] ++ List.replicate 10 7 ++ [0] ++ [1, 2, 3] : List ℕ) =
          0 :: 2 :: (ps ++ 0 :: [1, 2, 3]) ∧
        ps.length = 16 - ([1, 2, 3] : List ℕ).length - 3 ∧
        ∀ b ∈ ps, b ≠ 0) ∧
    pad_for_encryption [1, 2, 3] 13 (List.replicate 20 7) =
      some (.error .overflowError) :=
  ⟨(pad_for_encryption_correct [1, 2, 3] 16 (List.replicate 20 7)
      (by decide)).1 (by decide) ([0, 2] ++ List.replicate 10 7 ++ [0] ++ [1, 2, 3])
      rfl,
   (pad_for_encryption_correct [1, 2, 3] 13 (List.replicate 20 7)
      (by decide)).2 (by decide)⟩

/-! ## RSA correctness: Fermat, CRT recombination, blinding cancellation -/

theorem pow_congr_mod_prime (p : ℕ) (hp : p.Prime) (m k : ℕ)
    (hk : k ≡ 1 [MOD p - 1]) (h1 : 1 ≤ k) : m ^ k ≡ m [MOD p] := by
  by_cases hdvd : p ∣ m
  · have hm0 : m ≡ 0 [MOD p] := Nat.modEq_zero_iff_dvd.mpr hdvd
    calc m ^ k ≡ 0 ^ k [MOD p] := hm0.pow k
    _ = 0 := by rw [zero_pow (by omega : k ≠ 0)]
    _ ≡ m [MOD p] := hm0.symm
  · have hcop : Nat.Coprime m p := ((hp.coprime_iff_not_dvd).mpr hdvd).symm
    obtain ⟨t, ht⟩ := (Nat.modEq_iff_dvd' h1).mp hk.symm
    have hkt : k = 1 + (p - 1) * t := by omega
    have hflt : m ^ (p - 1) ≡ 1 [MOD p] := by
      have heuler := Nat.ModEq.pow_totient hcop
      rwa [Nat.totient_prime hp] at heuler
    rw [hkt, pow_add, pow_one, pow_mul]
    calc m * (m ^ (p - 1)) ^ t ≡ m * 1 ^ t [MOD p] :=
      Nat.ModEq.mul_left m (hflt.pow t)
    _ = m := by simp

theorem pow_exp_reduce_mod_prime (p : ℕ) (hp : p.Prime) (x d : ℕ)
    (hd : 1 ≤ d) (hdp : 1 ≤ d % (p - 1)) :
    x ^ (d % (p - 1)) ≡ x ^ d [MOD p] := by
  by_cases hdvd : p ∣ x
  · have h1 : x ^ (d % (p - 1)) ≡ 0 [MOD p] :=
      Nat.modEq_zero_iff_dvd.mpr (dvd_pow hdvd (by omega))
    have h2 : x ^ d ≡ 0 [MOD p] :=
      Nat.modEq_zero_iff_dvd.mpr (dvd_pow hdvd (by omega))
    exact h1.trans h2.symm
  · have hcop : Nat.Coprime x p := ((hp.coprime_iff_not_dvd).mpr hdvd).symm
    have hflt : x ^ (p - 1) ≡ 1 [MOD p] := by
      have heuler := Nat.ModEq.pow_totient hcop
      rwa [Nat.totient_prime hp] at heuler
    have h1 : (x ^ (p - 1)) ^ (d / (p - 1)) ≡ 1 [MOD p] := by
      calc (x ^ (p - 1)) ^ (d / (p - 1)) ≡ 1 ^ (d / (p - 1)) [MOD p] :=
        hflt.pow _
      _ = 1 := one_pow _
    calc x ^ (d % (p - 1)) = 1 * x ^ (d % (p - 1)) := (one_mul _).symm
    _ ≡ (x ^ (p - 1)) ^ (d / (p - 1)) * x ^ (d % (p - 1)) [MOD p] :=
      (h1.mul_right _).symm
    _ = x ^ d := by rw [← pow_mul, ← pow_add, Nat.div_add_mod]

theorem rsa_core (p q e d m : ℕ) (hp : p.Prime) (hq : q.Prime) (hpq : p ≠ q)
    (hed : e * d ≡ 1 [MOD (p - 1) * (q - 1)]) (h1 : 1 ≤ e * d) :
    m ^ (e * d) ≡ m [MOD p * q] := by
  have hcop : Nat.Coprime p q := (Nat.coprime_primes hp hq).mpr hpq
  rw [← Nat.modEq_and_modEq_iff_modEq_mul hcop]
  exact ⟨pow_congr_mod_prime p hp m (e * d)
      (hed.of_dvd (dvd_mul_right _ _)) h1,
    pow_congr_mod_prime q hq m (e * d)
      (hed.of_dvd (dvd_mul_left _ _)) h1⟩

theorem wf_facts (sk : PrivateKey) (hwf : sk.wf) :
    0 < sk.n ∧ 3 ≤ sk.q ∧ 5 ≤ sk.p ∧ 1 ≤ sk.d * sk.e ∧
      1 ≤ sk.d % (sk.p - 1) ∧ 1 ≤ sk.d % (sk.q - 1) ∧ 1 ≤ sk.d := by
  obtain ⟨hp, hq, hq2, hqp, hn, hde, he1, he2, hcoef⟩ := hwf
  have hq3 : 3 ≤ sk.q := by omega
  have hp5 : 5 ≤ sk.p := by
    have hp4 : 4 ≤ sk.p := by omega
    rcases Nat.lt_or_ge sk.p 5 with h | h
    · have : sk.p = 4 := by omega
      rw [this] at hp
      exact absurd hp (by decide)
    · exact h
  have hNbig : 8 ≤ (sk.p - 1) * (sk.q - 1) := by
    calc (8 : ℕ) = 4 * 2 := by norm_num
    _ ≤ (sk.p - 1) * (sk.q - 1) := Nat.mul_le_mul (by omega) (by omega)
  have hmod_one : ∀ N a, 1 < N → a ≡ 1 [MOD N] → a ≠ 0 := by
    intro N a hN h ha
    rw [ha] at h
    have h0 : (0 : ℕ) % N = 0 := Nat.zero_mod N
    have h1 : (1 : ℕ) % N = 1 := Nat.mod_eq_of_lt hN
    rw [Nat.ModEq, h0, h1] at h
    omega
  have hde1 : 1 ≤ sk.d * sk.e :=
    Nat.one_le_iff_ne_zero.mpr (hmod_one _ _ (by omega) hde)
  have hd1 : 1 ≤ sk.d := by
    rcases Nat.eq_zero_or_pos sk.d with h | h
    · rw [h] at hde1; omega
    · exact h
  have hdp : 1 ≤ sk.d % (sk.p - 1) := by
    rcases Nat.eq_zero_or_pos (sk.d % (sk.p - 1)) with h | h
    · exfalso
      have hdvd : (sk.p - 1) ∣ sk.d := Nat.dvd_of_mod_eq_zero h
      have h0 : sk.d * sk.e ≡ 0 [MOD sk.p - 1] := by
        have : (sk.p - 1) ∣ sk.d * sk.e := Dvd.dvd.mul_right hdvd _
        exact Nat.modEq_zero_iff_dvd.mpr this
      have h1 : sk.d * sk.e ≡ 1 [MOD sk.p - 1] :=
        hde.of_dvd (dvd_mul_right _ _)
      have h01 : (0 : ℕ) ≡ 1 [MOD sk.p - 1] := h0.symm.trans h1
      exact (hmod_one (sk.p - 1) 0 (by omega) h01) rfl
    · exact h
  have hdq : 1 ≤ sk.d % (sk.q - 1) := by
    rcases Nat.eq_zero_or_pos (sk.d % (sk.q - 1)) with h | h
    · exfalso
      have hdvd : (sk.q - 1) ∣ sk.d := Nat.dvd_of_mod_eq_zero h
      have h0 : sk.d * sk.e ≡ 0 [MOD sk.q - 1] := by
        have : (sk.q - 1) ∣ sk.d * sk.e := Dvd.dvd.mul_right hdvd _
        exact Nat.modEq_zero_iff_dvd.mpr this
      have h1 : sk.d * sk.e ≡ 1 [MOD sk.q - 1] :=
        hde.of_dvd (dvd_mul_left _ _)
      have h01 : (0 : ℕ) ≡ 1 [MOD sk.q - 1] := h0.symm.trans h1
      exact (hmod_one (sk.q - 1) 0 (by omega) h01) rfl
    · exact h
  exact ⟨by rw [hn]; positivity, hq3, hp5, hde1, hdp, hdq, hd1⟩

theorem crt_decrypt_eq (sk : PrivateKey) (hwf : sk.wf) (x : ℕ) :
    crt_decrypt sk x = x ^ sk.d % sk.n := by
  obtain ⟨hnpos, hq3, hp5, hde1, hdp, hdq, hd1⟩ := wf_facts sk hwf
  obtain ⟨hp, hq, hq2, hqp, hn, hde, he1, he2, hcoef⟩ := hwf
  have hppos : (0 : ℕ) < sk.p := by omega
  have hqpos : (0 : ℕ) < sk.q := by omega
  rw [crt_decrypt]
  set m1 := pow_mod x sk.exp1 sk.p with hm1
  set m2 := pow_mod x sk.exp2 sk.q with hm2
  have hm1v : m1 = x ^ sk.exp1 % sk.p := pow_mod_eq _ _ _ hppos
  have hm2v : m2 = x ^ sk.exp2 % sk.q := pow_mod_eq _ _ _ hqpos
  have hm1lt : m1 < sk.p := by rw [hm1v]; exact Nat.mod_lt _ hppos
  have hm2lt : m2 < sk.q := by rw [hm2v]; exact Nat.mod_lt _ hqpos
  set hInt : ℤ := (sk.coef : ℤ) * ((m1 : ℤ) - (m2 : ℤ)) % (sk.p : ℤ)
    with hhdef
  have hpz : (0 : ℤ) < (sk.p : ℤ) := by exact_mod_cast hppos
  have hH0 : 0 ≤ hInt := Int.emod_nonneg _ (by omega)
  have hHlt : hInt < (sk.p : ℤ) := Int.emod_lt_of_pos _ hpz
  have hHtoNat : (hInt.toNat : ℤ) = hInt := Int.toNat_of_nonneg hH0
  -- congruence modulo q
  have hq_cong : m2 + hInt.toNat * sk.q ≡ x ^ sk.d [MOD sk.q] := by
    have h0 : m2 + hInt.toNat * sk.q ≡ m2 + 0 [MOD sk.q] := by
      refine Nat.ModEq.add_left m2 ?_
      exact Nat.modEq_zero_iff_dvd.mpr (Dvd.intro_left _ rfl)
    have h1 : m2 ≡ x ^ sk.exp2 [MOD sk.q] := by
      rw [hm2v]
      exact (Nat.mod_modEq _ _)
    have h2 : x ^ sk.exp2 ≡ x ^ sk.d [MOD sk.q] := by
      rw [he2]
      exact pow_exp_reduce_mod_prime sk.q hq x sk.d hd1 (he2 ▸ hdq)
    calc m2 + hInt.toNat * sk.q ≡ m2 + 0 [MOD sk.q] := h0
    _ = m2 := by omega
    _ ≡ x ^ sk.exp2 [MOD sk.q] := h1
    _ ≡ x ^ sk.d [MOD sk.q] := h2
  -- congruence modulo p, over ℤ
  have hp_cong : m2 + hInt.toNat * sk.q ≡ x ^ sk.d [MOD sk.p] := by
    have hz : ((m2 + hInt.toNat * sk.q : ℕ) : ℤ) ≡ (m1 : ℤ) [ZMOD (sk.p : ℤ)] := by
      push_cast
      rw [hHtoNat]
      have e1 : hInt ≡ (sk.coef : ℤ) * ((m1 : ℤ) - (m2 : ℤ)) [ZMOD (sk.p : ℤ)] := by
        rw [hhdef]
        exact Int.emod_emod_of_dvd _ dvd_rfl
      calc (m2 : ℤ) + hInt * (sk.q : ℤ)
          ≡ (m2 : ℤ) + ((sk.coef : ℤ) * ((m1 : ℤ) - (m2 : ℤ))) * (sk.q : ℤ)
            [ZMOD (sk.p : ℤ)] :=
            Int.ModEq.add_left _ (Int.ModEq.mul_right _ e1)
      _ = (m2 : ℤ) + ((m1 : ℤ) - (m2 : ℤ)) * ((sk.coef : ℤ) * (sk.q : ℤ)) := by
            ring
      _ ≡ (m2 : ℤ) + ((m1 : ℤ) - (m2 : ℤ)) * 1 [ZMOD (sk.p : ℤ)] := by
            refine Int.ModEq.add_left _ (Int.ModEq.mul_left _ ?_)
            have : ((sk.coef * sk.q : ℕ) : ℤ) ≡ ((1 : ℕ) : ℤ)
                [ZMOD ((sk.p : ℕ) : ℤ)] := Int.natCast_modEq_iff.mpr hcoef
            push_cast at this
            exact this
      _ = (m1 : ℤ) := by ring
    have hn_cong : (m2 + hInt.toNat * sk.q) ≡ m1 [MOD sk.p] := by
      have := Int.natCast_modEq_iff.mp (by exact_mod_cast hz)
      exact this
    have h1 : m1 ≡ x ^ sk.exp1 [MOD sk.p] := by
      rw [hm1v]
      exact Nat.mod_modEq _ _
    have h2 : x ^ sk.exp1 ≡ x ^ sk.d [MOD sk.p] := by
      rw [he1]
      exact pow_exp_reduce_mod_prime sk.p hp x sk.d hd1 (he1 ▸ hdp)
    exact (hn_cong.trans h1).trans h2
  -- combine, and collapse by size
  have hcop : Nat.Coprime sk.p sk.q := (Nat.coprime_primes hp hq).mpr (by omega)
  have hcomb : m2 + hInt.toNat * sk.q ≡ x ^ sk.d [MOD sk.n] := by
    rw [hn]
    exact (Nat.modEq_and_modEq_iff_modEq_mul hcop).mp ⟨hp_cong, hq_cong⟩
  have hres_lt : m2 + hInt.toNat * sk.q < sk.n := by
    have hHn : hInt.toNat < sk.p := by omega
    have h2 : hInt.toNat * sk.q + sk.q ≤ sk.p * sk.q := by
      have h3 := Nat.mul_le_mul_right sk.q (show hInt.toNat + 1 ≤ sk.p by omega)
      rw [add_mul, one_mul] at h3
      exact h3
    rw [hn]
    omega
  have hxd_lt : x ^ sk.d % sk.n < sk.n := Nat.mod_lt _ hnpos
  have hfinal : m2 + hInt.toNat * sk.q ≡ x ^ sk.d % sk.n [MOD sk.n] :=
    hcomb.trans (Nat.mod_modEq _ _).symm
  exact hfinal.eq_of_lt_of_lt hres_lt hxd_lt

theorem unblind_pow_blind (sk : PrivateKey) (hwf : sk.wf) (r rinv m : ℕ)
    (hblind : r * rinv ≡ 1 [MOD sk.n]) :
    rinv * ((blind sk r m) ^ sk.d % sk.n) % sk.n = m ^ sk.d % sk.n := by
  obtain ⟨hnpos, hq3, hp5, hde1, hdp, hdq, hd1⟩ := wf_facts sk hwf
  obtain ⟨hp, hq, hq2, hqp, hn, hde, he1, he2, hcoef⟩ := hwf
  have hblind_val : blind sk r m = m * (r ^ sk.e % sk.n) % sk.n := by
    rw [blind, pow_mod_eq _ _ _ hnpos]
  have hblind_cong : blind sk r m ≡ m * r ^ sk.e [MOD sk.n] := by
    rw [hblind_val]
    calc m * (r ^ sk.e % sk.n) % sk.n ≡ m * (r ^ sk.e % sk.n) [MOD sk.n] :=
      Nat.mod_modEq _ _
    _ ≡ m * r ^ sk.e [MOD sk.n] :=
      Nat.ModEq.mul_left m (Nat.mod_modEq _ _)
  have hrd : r ^ (sk.e * sk.d) ≡ r [MOD sk.n] := by
    rw [hn]
    exact rsa_core sk.p sk.q sk.e sk.d r hp hq (by omega)
      (by rw [mul_comm sk.e sk.d]; exact hde) (by rw [mul_comm sk.e sk.d]; exact hde1)
  have hchain : rinv * ((blind sk r m) ^ sk.d % sk.n) ≡ m ^ sk.d [MOD sk.n] := by
    calc rinv * ((blind sk r m) ^ sk.d % sk.n)
        ≡ rinv * (blind sk r m) ^ sk.d [MOD sk.n] :=
          Nat.ModEq.mul_left rinv (Nat.mod_modEq _ _)
    _ ≡ rinv * (m * r ^ sk.e) ^ sk.d [MOD sk.n] :=
          Nat.ModEq.mul_left rinv (hblind_cong.pow sk.d)
    _ = rinv * (m ^ sk.d * r ^ (sk.e * sk.d)) := by
          rw [mul_pow, ← pow_mul]
    _ ≡ rinv * (m ^ sk.d * r) [MOD sk.n] :=
          Nat.ModEq.mul_left rinv (Nat.ModEq.mul_left _ hrd)
    _ = m ^ sk.d * (r * rinv) := by ring
    _ ≡ m ^ sk.d * 1 [MOD sk.n] := Nat.ModEq.mul_left _ hblind
    _ = m ^ sk.d := by ring
  have hlhs_lt : rinv * ((blind sk r m) ^ sk.d % sk.n) % sk.n < sk.n :=
    Nat.mod_lt _ hnpos
  have hrhs_lt : m ^ sk.d % sk.n < sk.n := Nat.mod_lt _ hnpos
  have : rinv * ((blind sk r m) ^ sk.d % sk.n) % sk.n ≡
      m ^ sk.d % sk.n [MOD sk.n] :=
    ((Nat.mod_modEq _ _).trans hchain).trans (Nat.mod_modEq _ _).symm
  exact this.eq_of_lt_of_lt hlhs_lt hrhs_lt

theorem blinded_decrypt_eq (sk : PrivateKey) (hwf : sk.wf) (r rinv c : ℕ)
    (hblind : r * rinv ≡ 1 [MOD sk.n]) :
    blinded_decrypt sk r rinv c = c ^ sk.d % sk.n := by
  rw [blinded_decrypt, crt_decrypt_eq sk hwf, unblind]
  exact unblind_pow_blind sk hwf r rinv c hblind

theorem blinded_encrypt_eq (sk : PrivateKey) (hwf : sk.wf) (r rinv m : ℕ)
    (hblind : r * rinv ≡ 1 [MOD sk.n]) :
    blinded_encrypt sk r rinv m = m ^ sk.d % sk.n := by
  have hnpos : 0 < sk.n := (wf_facts sk hwf).1
  rw [blinded_encrypt, unblind, pow_mod_eq _ _ _ hnpos]
  exact unblind_pow_blind sk hwf r rinv m hblind

/-! ## C2: the PKCS#1 v1.5 encryption round-trip -/

theorem findZeroAux_sep (ps M : List ℕ) (hps : ∀ b ∈ ps, b ≠ 0) :
    ∀ i, findZeroAux (ps ++ 0 :: M) i = some (i + ps.length) := by
  induction ps with
  | nil => intro i; simp [findZeroAux]
  | cons b t ih =>
    intro i
    rw [List.cons_append, findZeroAux, if_neg (hps b (by simp))]
    rw [ih (fun x hx => hps x (by simp [hx])) (i + 1)]
    simp only [List.length_cons]
    congr 1
    omega

/-- C2: for a well-formed key pair and every message of at most `k - 11`
bytes, `decrypt (encrypt M pub) priv = M`.  The random padding stream and the
blinding pair `(r, rinv)` (with the spec invariant `r * rinv ≡ 1 mod n`) are
the explicit environment of the two calls. -/
theorem decrypt_encrypt_roundtrip (sk : PrivateKey) (hwf : sk.wf)
    (M stream : List ℕ) (r rinv : ℕ)
    (hblind : r * rinv ≡ 1 [MOD sk.n])
    (hM : ∀ b ∈ M, b < 256)
    (hstream : ∀ b ∈ stream, b < 256)
    (hlen : (M.length : ℤ) ≤ (byte_size sk.n : ℤ) - 11)
    (c : List ℕ)
    (henc : encrypt M ⟨sk.n, sk.e⟩ stream = some (.ok c)) :
    decrypt c sk r rinv = .ok M := by
  obtain ⟨hnpos, hq3, hp5, hde1, hdp, hdq, hd1⟩ := wf_facts sk hwf
  obtain ⟨hk_lo, hk_hi, hk1⟩ := byte_size_bounds sk.n (by omega)
  set k := byte_size sk.n with hk
  have hk11 : M.length + 11 ≤ k := by omega
  -- unfold the encryption
  rw [encrypt] at henc
  rcases hpad : pad_for_encryption M (byte_size (PublicKey.mk sk.n sk.e).n)
      stream with _ | em'
  · rw [hpad] at henc
    exact absurd henc (by simp)
  · rw [hpad] at henc
    rcases em' with e | em
    · exact absurd henc (by simp)
    · simp only [Option.some.injEq] at henc
      have hpad' : pad_for_encryption M k stream = some (.ok em) := hpad
      obtain ⟨hemlen, ps, hem, hpslen, hps0, hps256⟩ :=
        pad_for_encryption_ok M k stream hstream (by omega) em hpad'
      have hem256 : ∀ b ∈ em, b < 256 := by
        intro b hb
        rw [hem] at hb
        simp only [List.mem_cons, List.mem_append] at hb
        rcases hb with rfl | hb
        · norm_num
        rcases hb with rfl | hb
        · norm_num
        rcases hb with hb | hb
        · exact hps256 b hb
        rcases hb with rfl | hb
        · norm_num
        · exact hM b hb
      set v := bytes2int em with hv
      have hv_lt : v < 256 ^ (k - 1) := by
        have hrest : bytes2int (2 :: (ps ++ 0 :: M)) < 256 ^ (k - 1) := by
          have hlenr : (2 :: (ps ++ 0 :: M) : List ℕ).length = k - 1 := by
            have := hemlen
            rw [hem] at this
            simp only [List.length_cons] at this ⊢
            omega
          have hr256 : ∀ b ∈ (2 :: (ps ++ 0 :: M) : List ℕ), b < 256 := by
            intro b hb
            apply hem256
            rw [hem]
            exact List.mem_cons_of_mem _ hb
          calc bytes2int (2 :: (ps ++ 0 :: M)) <
              256 ^ (2 :: (ps ++ 0 :: M) : List ℕ).length :=
                bytes2int_lt _ hr256
          _ = 256 ^ (k - 1) := by rw [hlenr]
        rw [hv, hem, bytes2int_cons_zero]
        exact hrest
      have hv_lt_n : v < sk.n := lt_of_lt_of_le hv_lt hk_lo
      have hv_lt_k : v < 256 ^ k :=
        lt_of_lt_of_le hv_lt (Nat.pow_le_pow_right (by norm_num) (by omega))
      -- the ciphertext bytes
      have hcipher : pow_mod v sk.e sk.n = v ^ sk.e % sk.n :=
        pow_mod_eq _ _ _ hnpos
      have hc_lt : v ^ sk.e % sk.n < 256 ^ k :=
        lt_trans (Nat.mod_lt _ hnpos) hk_hi
      rw [hcipher] at henc
      rw [int2bytes_ok _ _ hc_lt] at henc
      simp only [Except.ok.injEq] at henc
      -- now unfold the decryption
      rw [decrypt, ← henc]
      rw [show (bytes2int (natDigits k (v ^ sk.e % sk.n))) = v ^ sk.e % sk.n
        from bytes2int_natDigits_of_lt _ _ hc_lt]
      rw [blinded_decrypt_eq sk hwf r rinv _ hblind]
      have hdec_val : (v ^ sk.e % sk.n) ^ sk.d % sk.n = v := by
        have h1 : (v ^ sk.e % sk.n) ^ sk.d % sk.n = v ^ (sk.e * sk.d) % sk.n := by
          conv_lhs => rw [← Nat.pow_mod]
          rw [← pow_mul]
        rw [h1]
        have h2 : v ^ (sk.e * sk.d) ≡ v [MOD sk.n] := by
          obtain ⟨hp, hq, hq2, hqp, hn, hde, he1, he2, hcoef⟩ := hwf
          rw [hn]
          exact rsa_core sk.p sk.q sk.e sk.d v hp hq (by omega)
            (by rw [mul_comm sk.e sk.d]; exact hde)
            (by rw [mul_comm sk.e sk.d]; exact hde1)
        calc v ^ (sk.e * sk.d) % sk.n = v % sk.n := h2
        _ = v := Nat.mod_eq_of_lt hv_lt_n
      rw [hdec_val]
      rw [int2bytes_ok _ _ hv_lt_k]
      have hdig : natDigits k v = em := by
        have := natDigits_bytes2int em hem256
        rw [hemlen] at this
        exact this
      rw [hdig, hem]
      show (if List.take 2 (0 :: 2 :: (ps ++ 0 :: M)) ≠ [0, 2] then
          Except.error PyErr.decryptionError
        else
          match findZeroFrom (0 :: 2 :: (ps ++ 0 :: M)) 2 with
          | none => Except.error PyErr.decryptionError
          | some sep_idx =>
            Except.ok (List.drop (sep_idx + 1) (0 :: 2 :: (ps ++ 0 :: M)))) =
        Except.ok M
      rw [if_neg (by simp)]
      rw [findZeroFrom, show ((0 : ℕ) :: 2 :: (ps ++ 0 :: M)).drop 2 =
        ps ++ 0 :: M from rfl]
      rw [findZeroAux_sep ps M hps0 2]
      show Except.ok (List.drop (2 + ps.length + 1) (0 :: 2 :: (ps ++ 0 :: M))) =
        Except.ok M
      have hdrop : ((0 : ℕ) :: 2 :: (ps ++ 0 :: M)).drop (2 + ps.length + 1) =
          M := by
        have h1 : ((0 : ℕ) :: 2 :: (ps ++ 0 :: M)) =
            (0 :: 2 :: ps ++ [0]) ++ M := by simp
        have h2 : (0 :: 2 :: ps ++ [0] : List ℕ).length = 2 + ps.length + 1 := by
          simp only [List.length_append, List.length_cons]
          simp
          omega
        rw [h1, ← h2, List.drop_left]
      rw [hdrop]

/-! ## C1: `verify` after `sign` -/

theorem lookup_mem {β : Type} (l : List (String × β)) (a : String) (b : β)
    (h : l.lookup a = some b) : ∃ a', (a', b) ∈ l := by
  induction l with
  | nil => simp [List.lookup] at h
  | cons p t ih =>
    obtain ⟨pk, pv⟩ := p
    rw [List.lookup] at h
    cases hbe : (a == pk) with
    | true =>
      rw [hbe] at h
      simp only [Option.some.injEq] at h
      exact ⟨pk, by rw [← h]; exact List.mem_cons_self _ _⟩
    | false =>
      rw [hbe] at h
      obtain ⟨a', ha'⟩ := ih h
      exact ⟨a', List.mem_cons_of_mem _ ha'⟩

theorem hash_asn1_codes :
    ∀ p ∈ HASH_ASN1, (∀ b ∈ p.2, b < 256) ∧ p.2.headD 0 = 48 ∧ p.2 ≠ [] := by
  decide

/-- `_find_method_hash` never matches a block that begins with a zero byte,
because every DigestInfo prefix begins with `0x30` and the comparison is
`startswith`. -/
theorem find_method_hash_zero_head (rest : List ℕ) :
    find_method_hash (0 :: rest) = .error .verificationError := by
  rw [find_method_hash]
  have hnone : HASH_ASN1.find? (fun p => startswith p.2 (0 :: rest)) = none := by
    rw [List.find?_eq_none]
    intro p hp
    obtain ⟨-, h48, hne⟩ := hash_asn1_codes p hp
    rcases hcode : p.2 with _ | ⟨c, cs⟩
    · exact absurd hcode hne
    · rw [hcode] at h48
      simp only [List.headD_cons] at h48
      subst h48
      simp [startswith]
  rw [hnone]

theorem pad_for_signing_ok (T : List ℕ) (k : ℕ)
    (hle : (T.length : ℤ) ≤ (k : ℤ) - 11) :
    pad_for_signing T k =
      .ok ([0, 1] ++ List.replicate (k - T.length - 3) 255 ++ [0] ++ T) := by
  rw [pad_for_signing, if_neg (by omega)]

/-- C1 (refuted, code bug): for every well-formed key pair, hash family and
message, whenever `sign` succeeds, `verify` of the produced signature raises
`VerificationError` instead of returning the hash name: `_find_method_hash`
applies `startswith` to the full padded block, which begins `00 01`, while
every DigestInfo prefix begins `0x30`, so the hash is never identified. -/
theorem verify_of_sign_fails (sk : PrivateKey) (hwf : sk.wf)
    (hashImpl : String → List ℕ → List ℕ) (M : List ℕ) (method : String)
    (r rinv : ℕ) (hblind : r * rinv ≡ 1 [MOD sk.n])
    (hdig : ∀ name msg b, b ∈ hashImpl name msg → b < 256)
    (sig : List ℕ)
    (hsig : sign hashImpl M sk r rinv method = .ok sig) :
    verify hashImpl M sig ⟨sk.n, sk.e⟩ = .error .verificationError := by
  obtain ⟨hnpos, hq3, hp5, hde1, hdp, hdq, hd1⟩ := wf_facts sk hwf
  obtain ⟨hk_lo, hk_hi, hk1⟩ := byte_size_bounds sk.n (by omega)
  rcases hch : compute_hash hashImpl M method with e | hv
  · rw [sign, hch] at hsig
    exact absurd hsig (by simp)
  · rw [sign, hch] at hsig
    have hsig1 : sign_hash hv sk r rinv method = .ok sig := hsig
    have hhv : hv = hashImpl method M := by
      rw [compute_hash] at hch
      by_cases hmem : method ∈ HASH_METHOD_NAMES
      · rw [if_pos hmem] at hch
        simp only [Except.ok.injEq] at hch
        exact hch.symm
      · rw [if_neg hmem] at hch
        exact absurd hch (by simp)
    rcases hlk : HASH_ASN1.lookup method with _ | asn1code
    · rw [sign_hash, hlk] at hsig1
      exact absurd hsig1 (by simp)
    · rw [sign_hash, hlk] at hsig1
      have hsig2 : (match pad_for_signing (asn1code ++ hv) (byte_size sk.n) with
        | Except.error e => Except.error e
        | Except.ok padded =>
          int2bytes (blinded_encrypt sk r rinv (bytes2int padded))
            (byte_size sk.n)) = Except.ok sig := hsig1
      by_cases hov : ((asn1code ++ hv).length : ℤ) > (byte_size sk.n : ℤ) - 11
      · rw [pad_for_signing, if_pos hov] at hsig2
        exact absurd hsig2 (by simp)
      · rw [pad_for_signing_ok _ _ (by omega)] at hsig2
        set T := asn1code ++ hv with hT
        set em := [0, 1] ++ List.replicate (byte_size sk.n - T.length - 3) 255
          ++ [0] ++ T with hemdef
        have hsig3 : int2bytes (blinded_encrypt sk r rinv (bytes2int em))
            (byte_size sk.n) = Except.ok sig := hsig2
        -- facts about em
        have hTlen : T.length + 11 ≤ byte_size sk.n := by omega
        have hT256 : ∀ b ∈ T, b < 256 := by
          intro b hb
          rw [hT] at hb
          rcases List.mem_append.mp hb with hb | hb
          · obtain ⟨a', ha'⟩ := lookup_mem HASH_ASN1 method asn1code hlk
            exact (hash_asn1_codes _ ha').1 b hb
          · rw [hhv] at hb
            exact hdig method M b hb
        have hem_head : em = 0 :: (1 :: (List.replicate
            (byte_size sk.n - T.length - 3) 255 ++ [0] ++ T)) := by
          rw [hemdef]
          simp
        have hem256 : ∀ b ∈ em, b < 256 := by
          intro b hb
          rw [hem_head, List.mem_cons, List.mem_cons] at hb
          rcases hb with rfl | rfl | hb
          · norm_num
          · norm_num
          · rcases List.mem_append.mp hb with hb' | hb'
            · rcases List.mem_append.mp hb' with hb2 | hb2
              · have hb3 := List.eq_of_mem_replicate hb2
                rw [hb3]
                norm_num
              · rw [List.mem_singleton] at hb2
                rw [hb2]
                norm_num
            · exact hT256 b hb'
        have hemlen : em.length = byte_size sk.n := by
          rw [hemdef]
          simp only [List.length_append, List.length_cons, List.length_replicate]
          simp
          omega
        -- the signed payload
        set payload := bytes2int em with hpayload
        have hpayload_lt : payload < 256 ^ (byte_size sk.n - 1) := by
          rw [hpayload, hem_head, bytes2int_cons_zero]
          have hrl : (1 :: (List.replicate (byte_size sk.n - T.length - 3) 255
              ++ [0] ++ T)).length = byte_size sk.n - 1 := by
            have h0 := hemlen
            rw [hem_head] at h0
            simp only [List.length_cons] at h0 ⊢
            omega
          calc bytes2int (1 :: (List.replicate (byte_size sk.n - T.length - 3) 255
              ++ [0] ++ T)) < 256 ^ (1 :: (List.replicate
                (byte_size sk.n - T.length - 3) 255 ++ [0] ++ T)).length := by
                refine bytes2int_lt _ ?_
                intro b hb
                apply hem256
                rw [hem_head]
                exact List.mem_cons_of_mem _ hb
          _ = 256 ^ (byte_size sk.n - 1) := by rw [hrl]
        have hpayload_lt_n : payload < sk.n := lt_of_lt_of_le hpayload_lt hk_lo
        -- the signature bytes
        have henc_val : blinded_encrypt sk r rinv payload =
            payload ^ sk.d % sk.n := blinded_encrypt_eq sk hwf r rinv payload hblind
        have henc_lt : payload ^ sk.d % sk.n < 256 ^ byte_size sk.n :=
          lt_trans (Nat.mod_lt _ hnpos) hk_hi
        rw [henc_val, int2bytes_ok _ _ henc_lt] at hsig3
        simp only [Except.ok.injEq] at hsig3
        -- now unfold verify
        rw [verify]
        have hsig_b2i : bytes2int sig = payload ^ sk.d % sk.n := by
          rw [← hsig3]
          exact bytes2int_natDigits_of_lt _ _ henc_lt
        rw [hsig_b2i, pow_mod_eq _ _ _ hnpos]
        have hver_val : (payload ^ sk.d % sk.n) ^ sk.e % sk.n = payload := by
          have h1 : (payload ^ sk.d % sk.n) ^ sk.e % sk.n =
              payload ^ (sk.d * sk.e) % sk.n := by
            conv_lhs => rw [← Nat.pow_mod]
            rw [← pow_mul]
          rw [h1]
          have h2 : payload ^ (sk.d * sk.e) ≡ payload [MOD sk.n] := by
            obtain ⟨hp, hq, hq2, hqp, hn, hde, he1, he2, hcoef⟩ := hwf
            rw [hn]
            exact rsa_core sk.p sk.q sk.d sk.e payload hp hq (by omega) hde hde1
          calc payload ^ (sk.d * sk.e) % sk.n = payload % sk.n := h2
          _ = payload := Nat.mod_eq_of_lt hpayload_lt_n
        rw [hver_val]
        have hpayload_lt_k : payload < 256 ^ byte_size sk.n :=
          lt_of_lt_of_le hpayload_lt
            (Nat.pow_le_pow_right (by norm_num) (by omega))
        rw [int2bytes_ok _ _ hpayload_lt_k]
        have hdig_em : natDigits (byte_size sk.n) payload = em := by
          have := natDigits_bytes2int em hem256
          rw [hemlen] at this
          exact this
        rw [hdig_em, hem_head]
        show (match find_method_hash (0 :: (1 :: (List.replicate
            (byte_size sk.n - T.length - 3) 255 ++ [0] ++ T))) with
          | Except.error e => Except.error e
          | Except.ok method_name =>
            match compute_hash hashImpl M method_name with
            | Except.error e => Except.error e
            | Except.ok message_hash =>
              match pad_for_signing
                  ((HASH_ASN1.lookup method_name).getD [] ++ message_hash)
                  (byte_size (PublicKey.mk sk.n sk.e).n) with
              | Except.error e => Except.error e
              | Except.ok expected =>
                if expected ≠ (0 :: (1 :: (List.replicate
                    (byte_size sk.n - T.length - 3) 255 ++ [0] ++ T))) then
                  Except.error PyErr.verificationError
                else Except.ok method_name) =
          Except.error PyErr.verificationError
        rw [find_method_hash_zero_head]

/-! ## Base64 (Python `base64`, external library) and `rsa/pem.py` -/

/-- Standard base64 alphabet: index 0-63 to character code. -/
def b64EncChar (i : ℕ) : ℕ :=
  if i < 26 then 65 + i
  else if i < 52 then 97 + (i - 26)
  else if i < 62 then 48 + (i - 52)
  else if i = 62 then 43
  else 47

/-- Inverse of the base64 alphabet (0 for characters outside it). -/
def b64DecChar (c : ℕ) : ℕ :=
  if 65 ≤ c ∧ c ≤ 90 then c - 65
  else if 97 ≤ c ∧ c ≤ 122 then c - 71
  else if 48 ≤ c ∧ c ≤ 57 then c + 4
  else if c = 43 then 62
  else if c = 47 then 63
  else 0

/-- Modelled from the Python standard library: `base64.b64encode` with the
standard alphabet, 3-byte groups to 4 characters, `'='` (61) padding. -/
def b64encode : List ℕ → List ℕ
  | [] => []
  | [b1] => [b64EncChar (b1 / 4), b64EncChar (b1 % 4 * 16), 61, 61]
  | [b1, b2] => [b64EncChar (b1 / 4), b64EncChar (b1 % 4 * 16 + b2 / 16),
                 b64EncChar (b2 % 16 * 4), 61]
  | b1 :: b2 :: b3 :: rest =>
      b64EncChar (b1 / 4) :: b64EncChar (b1 % 4 * 16 + b2 / 16) ::
      b64EncChar (b2 % 16 * 4 + b3 / 64) :: b64EncChar (b3 % 64) ::
      b64encode rest

/-- Modelled from the Python standard library: `base64.b64decode` on
well-formed base64 (4-character groups, `'='` padding only at the end, which
is all `load_pem` ever passes it in the round-trip). -/
def b64decode : List ℕ → List ℕ
  | c1 :: c2 :: c3 :: c4 :: rest =>
    if rest = [] ∧ c4 = 61 then
      if c3 = 61 then [b64DecChar c1 * 4 + b64DecChar c2 / 16]
      else [b64DecChar c1 * 4 + b64DecChar c2 / 16,
            b64DecChar c2 % 16 * 16 + b64DecChar c3 / 4]
    else
      (b64DecChar c1 * 4 + b64DecChar c2 / 16) ::
      (b64DecChar c2 % 16 * 16 + b64DecChar c3 / 4) ::
      (b64DecChar c3 % 4 * 64 + b64DecChar c4) :: b64decode rest
  | _ => []

theorem b64_dec_enc : ∀ i, i < 64 → b64DecChar (b64EncChar i) = i := by
  decide

theorem b64_enc_ne_61 : ∀ i, i < 64 → b64EncChar i ≠ 61 := by
  decide

theorem b64_roundtrip : ∀ l : List ℕ, (∀ b ∈ l, b < 256) →
    b64decode (b64encode l) = l
  | [] => fun _ => rfl
  | [b1] => by
    intro h
    have h1 : b1 < 256 := h b1 (by simp)
    rw [b64encode, b64decode, if_pos ⟨rfl, rfl⟩, if_pos rfl]
    rw [b64_dec_enc _ (by omega), b64_dec_enc _ (by omega)]
    simp only [List.cons.injEq, and_true]
    omega
  | [b1, b2] => by
    intro h
    have h1 : b1 < 256 := h b1 (by simp)
    have h2 : b2 < 256 := h b2 (by simp)
    rw [b64encode, b64decode, if_pos ⟨rfl, rfl⟩,
      if_neg (b64_enc_ne_61 _ (by omega))]
    rw [b64_dec_enc _ (by omega), b64_dec_enc _ (by omega),
      b64_dec_enc _ (by omega)]
    simp only [List.cons.injEq, and_true]
    omega
  | b1 :: b2 :: b3 :: rest => by
    intro h
    have h1 : b1 < 256 := h b1 (by simp)
    have h2 : b2 < 256 := h b2 (by simp)
    have h3 : b3 < 256 := h b3 (by simp)
    have ih := b64_roundtrip rest (fun x hx => h x (by simp [hx]))
    rw [b64encode, b64decode,
      if_neg (fun hand => (b64_enc_ne_61 (b3 % 64) (by omega)) hand.2)]
    rw [b64_dec_enc _ (by omega), b64_dec_enc _ (by omega),
      b64_dec_enc _ (by omega), b64_dec_enc _ (by omega), ih]
    simp only [List.cons.injEq]
    refine ⟨by omega, by omega, by omega, trivial⟩
termination_by l => l.length

/-- Python's `bytes.strip` whitespace set. -/
def isPySpace (b : ℕ) : Bool :=
  b == 32 || b == 9 || b == 10 || b == 13 || b == 11 || b == 12

/-- Python's `bytes.strip()`: remove ASCII whitespace from both ends. -/
def pyStrip (l : List ℕ) : List ℕ :=
  ((l.dropWhile isPySpace).reverse.dropWhile isPySpace).reverse

/-- `rsa.pem._markers`, start half: `-----BEGIN <marker>-----`. -/
def pemBegin (marker : List ℕ) : List ℕ :=
  [45, 45, 45, 45, 45, 66, 69, 71, 73, 78, 32] ++ marker ++ [45, 45, 45, 45, 45]

/-- `rsa.pem._markers`, end half: `-----END <marker>-----`. -/
def pemEnd (marker : List ℕ) : List ℕ :=
  [45, 45, 45, 45, 45, 69, 78, 68, 32] ++ marker ++ [45, 45, 45, 45, 45]

/-- The 64-character line chunking of `save_pem` (`range(0, len, 64)`),
fuel-bounded (fuel `≥ length` always suffices). -/
def splitChunks : ℕ → List ℕ → List (List ℕ)
  | 0, _ => []
  | fuel + 1, l => if l = [] then [] else l.take 64 :: splitChunks fuel (l.drop 64)

/-- `b'\n'.flatten`. -/
def joinNl : List (List ℕ) → List ℕ
  | [] => []
  | [l] => l
  | l :: ls => l ++ 10 :: joinNl ls

/-- `rsa.pem.save_pem`: BEGIN line, base64 body wrapped at 64 characters,
END line, joined with `\n` and terminated by `\n`. -/
def save_pem (contents marker : List ℕ) : List ℕ :=
  let b64 := b64encode contents
  joinNl ([pemBegin marker] ++ splitChunks b64.length b64 ++ [pemEnd marker])
    ++ [10]

/-- `contents.split(b'\n')`. -/
def splitNl (l : List ℕ) : List (List ℕ) :=
  l.foldr
    (fun c acc => if c == 10 then [] :: acc else (c :: acc.headD []) :: acc.tail)
    [[]]

/-- The `_pem_lines` generator once the BEGIN marker was seen: keep yielding
stripped lines until the END marker; a line equal to the BEGIN marker is
swallowed (it only re-sets the `in_pem_part` flag). -/
def pemAfterStart (pstart pend : List ℕ) : List (List ℕ) → List (List ℕ)
  | [] => []
  | l :: ls =>
    let s := pyStrip l
    if s = pstart then pemAfterStart pstart pend ls
    else if s = pend then []
    else s :: pemAfterStart pstart pend ls

/-- The `_pem_lines` generator before the BEGIN marker was seen. -/
def pemLinesScan (pstart pend : List ℕ) : List (List ℕ) → List (List ℕ)
  | [] => []
  | l :: ls =>
    if pyStrip l = pstart then pemAfterStart pstart pend ls
    else pemLinesScan pstart pend ls

/-- `rsa.pem.load_pem`: collect the lines strictly between the first BEGIN
marker line and the next END marker line, fail with `ValueError` when there
are none, and base64-decode their concatenation.  (Python surfaces base64
errors as `ValueError` too; the modelled decoder is total and the round-trip
only feeds it valid base64.) -/
def load_pem (contents marker : List ℕ) : Except PyErr (List ℕ) :=
  let pem_lines := pemLinesScan (pemBegin marker) (pemEnd marker)
    (splitNl contents)
  if pem_lines = [] then .error .valueError
  else .ok (b64decode pem_lines.flatten)

theorem splitNl_cons (c : ℕ) (t : List ℕ) :
    splitNl (c :: t) = if c == 10 then [] :: splitNl t
      else (c :: (splitNl t).headD []) :: (splitNl t).tail := rfl

theorem splitNl_no_nl (l : List ℕ) (h : ∀ c ∈ l, c ≠ 10) : splitNl l = [l] := by
  induction l with
  | nil => rfl
  | cons a t ih =>
    rw [splitNl_cons, if_neg (by simp [h a (by simp)]),
      ih (fun c hc => h c (by simp [hc]))]
    simp

theorem splitNl_append (x y : List ℕ) (hx : ∀ c ∈ x, c ≠ 10) :
    splitNl (x ++ 10 :: y) = x :: splitNl y := by
  induction x with
  | nil =>
    rw [List.nil_append, splitNl_cons, if_pos (by simp)]
  | cons a t ih =>
    rw [List.cons_append, splitNl_cons,
      if_neg (by simp [hx a (by simp)]),
      ih (fun c hc => hx c (by simp [hc]))]
    simp

theorem joinNl_cons_cons (l l' : List ℕ) (ls : List (List ℕ)) :
    joinNl (l :: l' :: ls) = l ++ 10 :: joinNl (l' :: ls) := rfl

theorem splitNl_save : ∀ lines : List (List ℕ), lines ≠ [] →
    (∀ l ∈ lines, ∀ c ∈ l, c ≠ 10) →
    splitNl (joinNl lines ++ [10]) = lines ++ [[]]
  | [], h, _ => absurd rfl h
  | [l], _, h => by
    rw [joinNl]
    rw [show (l ++ [10] : List ℕ) = l ++ 10 :: [] from rfl]
    rw [splitNl_append l [] (h l (by simp))]
    rfl
  | l :: l' :: ls, _, h => by
    rw [joinNl_cons_cons, List.append_assoc, List.cons_append,
      splitNl_append l _ (h l (by simp)),
      splitNl_save (l' :: ls) (by simp) (fun m hm => h m (by simp [hm]))]
    rfl

theorem dropWhile_all_false (p : ℕ → Bool) (l : List ℕ)
    (h : ∀ c ∈ l, p c = false) : l.dropWhile p = l := by
  cases l with
  | nil => rfl
  | cons a t => rw [List.dropWhile_cons, if_neg (by simp [h a (by simp)])]

theorem pyStrip_nonspace (l : List ℕ) (h : ∀ c ∈ l, isPySpace c = false) :
    pyStrip l = l := by
  rw [pyStrip, dropWhile_all_false _ _ h,
    dropWhile_all_false _ _ (fun c hc => h c (List.mem_reverse.mp hc)),
    List.reverse_reverse]

theorem pyStrip_wrap (xs : List ℕ) :
    pyStrip (45 :: (xs ++ [45])) = 45 :: (xs ++ [45]) := by
  rw [pyStrip]
  rw [List.dropWhile_cons, if_neg (by decide)]
  have hrev : (45 :: (xs ++ [45])).reverse = 45 :: (xs.reverse ++ [45]) := by
    simp
  rw [hrev, List.dropWhile_cons, if_neg (by decide)]
  simp

theorem pemBegin_wrap (marker : List ℕ) :
    pemBegin marker =
      45 :: (([45, 45, 45, 45, 66, 69, 71, 73, 78, 32] ++ marker
        ++ [45, 45, 45, 45]) ++ [45]) := by
  rw [pemBegin]
  simp

theorem pemEnd_wrap (marker : List ℕ) :
    pemEnd marker =
      45 :: (([45, 45, 45, 45, 69, 78, 68, 32] ++ marker
        ++ [45, 45, 45, 45]) ++ [45]) := by
  rw [pemEnd]
  simp

theorem pemBegin_ne_pemEnd (marker : List ℕ) :
    pemBegin marker ≠ pemEnd marker := by
  intro h
  rw [pemBegin, pemEnd] at h
  simp at h

theorem splitChunks_join : ∀ (fuel : ℕ) (l : List ℕ), l.length ≤ fuel →
    (splitChunks fuel l).flatten = l := by
  intro fuel
  induction fuel with
  | zero =>
    intro l h
    have : l = [] := by
      cases l with
      | nil => rfl
      | cons a t => simp at h
    rw [this]
    rfl
  | succ f ih =>
    intro l h
    rw [splitChunks]
    by_cases hl : l = []
    · rw [if_pos hl, hl]; rfl
    · rw [if_neg hl]
      have hlen : (l.drop 64).length ≤ f := by
        rw [List.length_drop]
        have : 1 ≤ l.length := by
          cases l with
          | nil => exact absurd rfl hl
          | cons a t => simp
        omega
      rw [show (List.take 64 l :: splitChunks f (List.drop 64 l)).flatten =
        List.take 64 l ++ (splitChunks f (List.drop 64 l)).flatten from rfl]
      rw [ih (l.drop 64) hlen, List.take_append_drop]

theorem splitChunks_mem : ∀ (fuel : ℕ) (l c : List ℕ),
    c ∈ splitChunks fuel l → c ≠ [] ∧ ∀ b ∈ c, b ∈ l := by
  intro fuel
  induction fuel with
  | zero => intro l c hc; rw [splitChunks] at hc; simp at hc
  | succ f ih =>
    intro l c hc
    rw [splitChunks] at hc
    by_cases hl : l = []
    · rw [if_pos hl] at hc; simp at hc
    · rw [if_neg hl] at hc
      rcases List.mem_cons.mp hc with rfl | hc'
      · refine ⟨?_, fun b hb => List.mem_of_mem_take hb⟩
        rw [ne_eq, List.take_eq_nil_iff]
        simp [hl]
      · obtain ⟨hne, hmem⟩ := ih (l.drop 64) c hc'
        exact ⟨hne, fun b hb => List.mem_of_mem_drop (hmem b hb)⟩

theorem b64EncChar_props : ∀ i, i < 64 →
    isPySpace (b64EncChar i) = false ∧ b64EncChar i ≠ 45 ∧
      b64EncChar i ≠ 10 := by
  decide

theorem b64encode_mem : ∀ l : List ℕ, (∀ x ∈ l, x < 256) →
    ∀ b ∈ b64encode l, b = 61 ∨ ∃ i, i < 64 ∧ b = b64EncChar i
  | [] => by intro _ b hb; simp [b64encode] at hb
  | [b1] => by
    intro h b hb
    have h1 : b1 < 256 := h b1 (by simp)
    rw [b64encode] at hb
    simp only [List.mem_cons, List.not_mem_nil, or_false] at hb
    rcases hb with rfl | rfl | rfl | rfl
    · exact Or.inr ⟨b1 / 4, by omega, rfl⟩
    · exact Or.inr ⟨b1 % 4 * 16, by omega, rfl⟩
    · exact Or.inl rfl
    · exact Or.inl rfl
  | [b1, b2] => by
    intro h b hb
    have h1 : b1 < 256 := h b1 (by simp)
    have h2 : b2 < 256 := h b2 (by simp)
    rw [b64encode] at hb
    simp only [List.mem_cons, List.not_mem_nil, or_false] at hb
    rcases hb with rfl | rfl | rfl | rfl
    · exact Or.inr ⟨b1 / 4, by omega, rfl⟩
    · exact Or.inr ⟨b1 % 4 * 16 + b2 / 16, by omega, rfl⟩
    · exact Or.inr ⟨b2 % 16 * 4, by omega, rfl⟩
    · exact Or.inl rfl
  | b1 :: b2 :: b3 :: rest => by
    intro h b hb
    have h1 : b1 < 256 := h b1 (by simp)
    have h2 : b2 < 256 := h b2 (by simp)
    have h3 : b3 < 256 := h b3 (by simp)
    rw [b64encode] at hb
    simp only [List.mem_cons] at hb
    rcases hb with rfl | rfl | rfl | rfl | hb
    · exact Or.inr ⟨b1 / 4, by omega, rfl⟩
    · exact Or.inr ⟨b1 % 4 * 16 + b2 / 16, by omega, rfl⟩
    · exact Or.inr ⟨b2 % 16 * 4 + b3 / 64, by omega, rfl⟩
    · exact Or.inr ⟨b3 % 64, by omega, rfl⟩
    · exact b64encode_mem rest (fun x hx => h x (by simp [hx])) b hb
termination_by l => l.length

theorem b64_char_facts (l : List ℕ) (h256 : ∀ x ∈ l, x < 256) :
    ∀ b ∈ b64encode l, isPySpace b = false ∧ b ≠ 45 ∧ b ≠ 10 := by
  intro b hb
  rcases b64encode_mem l h256 b hb with rfl | ⟨i, hi, rfl⟩
  · exact ⟨by decide, by decide, by decide⟩
  · exact b64EncChar_props i hi

theorem b64encode_ne_nil (l : List ℕ) (h : l ≠ []) : b64encode l ≠ [] := by
  match l with
  | [] => exact absurd rfl h
  | [b1] => simp [b64encode]
  | [b1, b2] => simp [b64encode]
  | b1 :: b2 :: b3 :: rest => simp [b64encode]

theorem pemAfterStart_run (pstart pend : List ℕ)
    (hdiff : pstart ≠ pend) :
    ∀ (chunks : List (List ℕ)) (tail : List (List ℕ)) (pendline : List ℕ),
      (∀ c ∈ chunks, pyStrip c = c ∧ c ≠ pstart ∧ c ≠ pend) →
      pyStrip pendline = pend →
      pemAfterStart pstart pend (chunks ++ pendline :: tail) = chunks := by
  intro chunks
  induction chunks with
  | nil =>
    intro tail pendline _ hpl
    rw [List.nil_append, pemAfterStart]
    show (if pyStrip pendline = pstart then pemAfterStart pstart pend tail
      else if pyStrip pendline = pend then []
      else pyStrip pendline :: pemAfterStart pstart pend tail) = []
    rw [hpl, if_neg (fun hh => hdiff hh.symm), if_pos rfl]
  | cons c cs ih =>
    intro tail pendline hch hpl
    rw [List.cons_append, pemAfterStart]
    obtain ⟨hstrip, hnstart, hnend⟩ := hch c (by simp)
    simp only [hstrip]
    rw [if_neg hnstart, if_neg hnend,
      ih tail pendline (fun m hm => hch m (by simp [hm])) hpl]

/-- C8 counterexample: saving the **empty** byte string produces a PEM body
with no base64 lines, and loading it back raises `ValueError` ("no start
marker") instead of returning `b''`. -/
theorem load_save_pem_empty_counterexample :
    load_pem (save_pem [] [77]) [77] = .error .valueError := rfl

/-- C8 (amended): for every **non-empty** byte string `x` and every marker
without a newline byte, `load_pem (save_pem x marker) marker = x`: saving
armors `x` as base64 between the BEGIN/END marker lines wrapped at 64
characters, and loading decodes exactly the lines between them. -/
theorem load_save_pem_roundtrip (x marker : List ℕ) (hx : x ≠ [])
    (hx256 : ∀ b ∈ x, b < 256) (hm : (10 : ℕ) ∉ marker) :
    load_pem (save_pem x marker) marker = .ok x := by
  have hchars := b64_char_facts x hx256
  set b64 := b64encode x with hb64
  set chunks := splitChunks b64.length b64 with hchunks
  have hchfacts : ∀ c ∈ chunks, pyStrip c = c ∧ c ≠ pemBegin marker ∧
      c ≠ pemEnd marker := by
    intro c hc
    obtain ⟨hne, hmem⟩ := splitChunks_mem b64.length b64 c hc
    have hprops : ∀ b ∈ c, isPySpace b = false ∧ b ≠ 45 ∧ b ≠ 10 :=
      fun b hb => hchars b (hmem b hb)
    refine ⟨pyStrip_nonspace c (fun b hb => (hprops b hb).1), ?_, ?_⟩
    · intro heq
      rcases hc' : c with _ | ⟨c0, ct⟩
      · exact hne hc'
      · rw [hc', pemBegin_wrap] at heq
        have : c0 = 45 := (List.cons.injEq _ _ _ _).mp heq |>.1
        have h45 := (hprops c0 (by rw [hc']; simp)).2.1
        exact h45 this
    · intro heq
      rcases hc' : c with _ | ⟨c0, ct⟩
      · exact hne hc'
      · rw [hc', pemEnd_wrap] at heq
        have : c0 = 45 := (List.cons.injEq _ _ _ _).mp heq |>.1
        have h45 := (hprops c0 (by rw [hc']; simp)).2.1
        exact h45 this
  have hlines_no_nl : ∀ l ∈ ([pemBegin marker] ++ chunks ++ [pemEnd marker]),
      ∀ c ∈ l, c ≠ 10 := by
    intro l hl c hc
    simp only [List.mem_append, List.mem_singleton] at hl
    rcases hl with (rfl | hl) | rfl
    · intro h10
      subst h10
      rw [pemBegin] at hc
      simp at hc
      exact hm hc
    · obtain ⟨-, hmem⟩ := splitChunks_mem b64.length b64 l hl
      exact (hchars c (hmem c hc)).2.2
    · intro h10
      subst h10
      rw [pemEnd] at hc
      simp at hc
      exact hm hc
  have hsave : save_pem x marker =
      joinNl ([pemBegin marker] ++ chunks ++ [pemEnd marker]) ++ [10] := rfl
  have hsplit : splitNl (save_pem x marker) =
      ([pemBegin marker] ++ chunks ++ [pemEnd marker]) ++ [[]] := by
    rw [hsave]
    exact splitNl_save _ (by simp) hlines_no_nl
  rw [load_pem, hsplit]
  have hscan : pemLinesScan (pemBegin marker) (pemEnd marker)
      ((([pemBegin marker] ++ chunks ++ [pemEnd marker]) ++ [[]])) = chunks := by
    have hshape : (([pemBegin marker] ++ chunks ++ [pemEnd marker]) ++ [[]]) =
        pemBegin marker :: (chunks ++ pemEnd marker :: [[]]) := by
      simp
    rw [hshape, pemLinesScan]
    rw [if_pos (by rw [pemBegin_wrap]; exact pyStrip_wrap _)]
    refine pemAfterStart_run (pemBegin marker) (pemEnd marker)
      (pemBegin_ne_pemEnd marker) chunks [[]] (pemEnd marker)
      (fun c hc => hchfacts c hc) ?_
    rw [pemEnd_wrap]
    exact pyStrip_wrap _
  rw [hscan]
  have hchne : chunks ≠ [] := by
    intro h0
    have hj := splitChunks_join b64.length b64 (le_refl _)
    rw [← hchunks, h0] at hj
    exact b64encode_ne_nil x hx (by rw [← hb64, ← hj]; rfl)
  rw [if_neg hchne]
  have hjoin : chunks.flatten = b64 := splitChunks_join b64.length b64 (le_refl _)
  rw [hjoin, hb64, b64_roundtrip x hx256]

/-- Witness for the amended C8: `x = [0]`, marker `"M"` (byte 77). -/
theorem load_save_pem_roundtrip_witness :
    load_pem (save_pem [0] [77]) [77] = .ok [0] :=
  load_save_pem_roundtrip [0] [77] (by decide) (by decide) (by decide)

/-! ## Concrete keys for the witnesses, certified prime via Lucas -/

theorem prime_of_proth (k s p a : ℕ) (hk : k.Prime) (hps : p - 1 = k * 2 ^ s)
    (hp2 : 2 < p)
    (h1 : pow_mod a (p - 1) p = 1)
    (h2 : pow_mod a ((p - 1) / 2) p ≠ 1)
    (hka : pow_mod a ((p - 1) / k) p ≠ 1) : p.Prime := by
  have hppos : 0 < p := by omega
  have hp1 : 1 < p := by omega
  have hcast : ∀ m, ((pow_mod a m p : ℕ) : ZMod p) = (a : ZMod p) ^ m := by
    intro m
    rw [pow_mod_eq a m p hppos, ZMod.natCast_mod, Nat.cast_pow]
  have hne : ∀ m, pow_mod a m p ≠ 1 → (a : ZMod p) ^ m ≠ 1 := by
    intro m hm hcontra
    rw [← hcast m] at hcontra
    have hval := congrArg ZMod.val hcontra
    rw [ZMod.val_cast_of_lt (pow_mod_lt a m p hppos),
      ZMod.val_one_eq_one_mod, Nat.mod_eq_of_lt hp1] at hval
    exact hm hval
  refine lucas_primality p (a : ZMod p) ?_ ?_
  · rw [← hcast (p - 1), h1, Nat.cast_one]
  · intro q hq hqdvd
    rw [hps] at hqdvd
    have hq2k : q = 2 ∨ q = k := by
      rcases (Nat.Prime.dvd_mul hq).mp hqdvd with hqk | hq2
      · right
        exact (Nat.prime_dvd_prime_iff_eq hq hk).mp hqk
      · left
        exact (Nat.prime_dvd_prime_iff_eq hq Nat.prime_two).mp
          (hq.dvd_of_dvd_pow hq2)
    rcases hq2k with rfl | rfl
    · exact hne _ h2
    · exact hne _ hka

/-- A 95-bit (12-byte) test key: `p = 29 * 2^43 + 1`, `q = 11 * 2^43 + 1`,
`e = 65537`. -/
def keyA : PrivateKey :=
  ⟨24681429533252621074522177537, 65537, 10985508941284597913582764033,
   255086697644033, 96757023244289, 8800387923969, 87965225123841,
   70857416012233⟩

theorem keyA_p_prime : Nat.Prime 255086697644033 :=
  prime_of_proth 29 43 255086697644033 3 (by norm_num) (by decide)
    (by decide) (by decide) (by decide) (by decide)

theorem keyA_q_prime : Nat.Prime 96757023244289 :=
  prime_of_proth 11 43 96757023244289 3 (by norm_num) (by decide)
    (by decide) (by decide) (by decide) (by decide)

theorem keyA_wf : keyA.wf :=
  ⟨keyA_p_prime, keyA_q_prime, by decide, by decide, by decide, by decide,
   by decide, by decide, by decide⟩

/-- A 353-bit (45-byte) test key: `p = 1123 * 2^168 + 1`,
`q = 61 * 2^168 + 1`, `e = 65537`. -/
def keyB : PrivateKey :=
  ⟨9589327129587882614738529284111258649010442593566575261065364368003662778675597863225389072390833896947713,
   65537,
   2893610224983291371119659964944752598422730865470994760247156360251259232274865230913878360911835134099457,
   420164182712986618148540945187938772754844734915084289,
   22822809568559379970668742347697475634947042591113217,
   74830345310679155393590947285252931254017543462912001,
   9729216377411415805126010096738820426463684268589057,
   2769443765528160383276635231935566298760746840306583⟩

theorem keyB_p_prime :
    Nat.Prime 420164182712986618148540945187938772754844734915084289 :=
  prime_of_proth 1123 168 420164182712986618148540945187938772754844734915084289
    3 (by norm_num) (by decide) (by decide) (by decide) (by decide) (by decide)

theorem keyB_q_prime :
    Nat.Prime 22822809568559379970668742347697475634947042591113217 :=
  prime_of_proth 61 168 22822809568559379970668742347697475634947042591113217
    3 (by norm_num) (by decide) (by decide) (by decide) (by decide) (by decide)

theorem keyB_wf : keyB.wf :=
  ⟨keyB_p_prime, keyB_q_prime, by decide, by decide, by decide, by decide,
   by decide, by decide, by decide⟩

/-- C3 (refuted, code bug): `decrypt` accepts a ciphertext whose padded
block is `00 02 00 09 ... 09` — the `0x00` separator sits at index 2, i.e.
there are **zero** padding bytes, fewer than the 8 the claim requires — and
returns the 9 trailing bytes instead of raising `DecryptionError`.  The first
conjunct exhibits the decrypted block, the second the accepting result. -/
theorem decrypt_accepts_short_padding :
    int2bytes (blinded_decrypt keyA 1 1
        (bytes2int [49, 200, 132, 255, 47, 20, 202, 97, 182, 132, 54, 225]))
        (byte_size keyA.n) =
      .ok [0, 2, 0, 9, 9, 9, 9, 9, 9, 9, 9, 9] ∧
    decrypt [49, 200, 132, 255, 47, 20, 202, 97, 182, 132, 54, 225] keyA 1 1 =
      .ok [9, 9, 9, 9, 9, 9, 9, 9, 9] :=
  ⟨rfl, rfl⟩

/-- Witness for C2: message `[104]` under `keyA`, padding stream of 7s,
blinding pair `(1, 1)`. -/
theorem decrypt_encrypt_roundtrip_witness :
    decrypt [24, 174, 110, 195, 151, 232, 90, 192, 195, 8, 166, 154]
      keyA 1 1 = .ok [104] :=
  decrypt_encrypt_roundtrip keyA keyA_wf [104] (List.replicate 20 7) 1 1
    (by decide) (by decide) (by decide) (by decide)
    [24, 174, 110, 195, 151, 232, 90, 192, 195, 8, 166, 154] rfl

/-- Witness for C1: a constant MD5-sized hash family under `keyB`; `sign`
succeeds with the displayed signature and `verify` of that very signature
raises `VerificationError`. -/
theorem verify_of_sign_fails_witness :
    sign (fun _ _ => List.replicate 16 170) [104, 105] keyB 1 1 "MD5" =
      .ok [0, 149, 235, 28, 138, 177, 96, 61, 181, 118, 111, 184, 205, 156,
        251, 36, 132, 211, 139, 189, 96, 143, 134, 241, 70, 41, 128, 21, 243,
        248, 1, 101, 157, 107, 61, 5, 130, 179, 193, 1, 21, 129, 241, 251,
        180] ∧
    verify (fun _ _ => List.replicate 16 170) [104, 105]
      [0, 149, 235, 28, 138, 177, 96, 61, 181, 118, 111, 184, 205, 156, 251,
        36, 132, 211, 139, 189, 96, 143, 134, 241, 70, 41, 128, 21, 243, 248,
        1, 101, 157, 107, 61, 5, 130, 179, 193, 1, 21, 129, 241, 251, 180]
      ⟨keyB.n, keyB.e⟩ = .error .verificationError :=
  ⟨rfl,
   verify_of_sign_fails keyB keyB_wf (fun _ _ => List.replicate 16 170)
     [104, 105] "MD5" 1 1 (by decide)
     (fun _ _ b hb => by
       have hb' := List.eq_of_mem_replicate hb
       omega)
     [0, 149, 235, 28, 138, 177, 96, 61, 181, 118, 111, 184, 205, 156, 251,
       36, 132, 211, 139, 189, 96, 143, 134, 241, 70, 41, 128, 21, 243, 248,
       1, 101, 157, 107, 61, 5, 130, 179, 193, 1, 21, 129, 241, 251, 180]
     rfl⟩

end RSA
